import Mathlib

/-!
Verification of the dumpster cycle-collecting garbage collector.

This file gives a shallow embedding of the collector's core algorithms and
proves properties of them:

* the thread-local (unsync) three-pass cycle collector of
  `src/dumpster/src/unsync/collect.rs` (reference-graph construction,
  reachability sweep, destruction);
* the trigger policy of `Dumpster::notify_dropped_gc` and
  `Dumpster::notify_created_gc`;
* the two-word type-erased pointer of `src/dumpster/src/lib.rs`
  (`ErasedPtr::new` / `ErasedPtr::specify`);
* the fixed-size lock-free hash table of
  `src/dumpster/src/sync/collect/dumpster.rs` (`try_insert`, `is_full`),
  modelled sequentially (one CAS at a time).

The heap is abstracted as a finite association list from allocation ids to
allocation records.  An allocation record carries the strong reference count
stored in its GcBox, the ordered list of ids of the unsync `Gc` fields that
the user value's `accept` visits (one entry per `Gc` handle owned by the
value), and a flag telling whether `accept` returns `Err(())` after
dispatching on those fields (an `accept` that fails midway is represented by
listing only the fields it visited before failing).  Machine `usize` values
are modelled as `Nat`; the one place the source performs explicitly
saturating arithmetic (`NonZeroUsize::saturating_add`) is modelled with an
explicit cap at `usizeMax`.  Panics (a failed `unwrap`, a failed assertion)
and runs that exceed the recursion fuel are modelled as `none`.
-/

namespace Dumpster

/-- The largest value of a 64-bit machine word (`usize::MAX`). -/
def usizeMax : Nat := 2 ^ 64 - 1

/-- Saturating addition on machine words, as performed by
`NonZeroUsize::saturating_add` in `BuildRefGraph::visit_unsync`. -/
def satAdd (a k : Nat) : Nat := min (a + k) usizeMax

/-- One allocation as seen by the collector: the strong reference count held
in its `GcBox`, the ids that its value's `accept` dispatches the visitor to
(in visiting order, one entry per owned `Gc`), and whether `accept` returns
an error after those dispatches. -/
structure Alloc where
  refCount : Nat
  fields : List Nat
  acceptErr : Bool
deriving DecidableEq, Repr

/-- The heap: a finite map from allocation ids to allocations, as an
association list. -/
abbrev Heap := List (Nat × Alloc)

/-- The ids of the allocated blocks. -/
def heapKeys (h : Heap) : List Nat := h.map Prod.fst

/-- Whether an id denotes an allocated block. -/
def isAlloc (h : Heap) (i : Nat) : Bool := (List.lookup i h).isSome

/-- The `Gc` fields of the allocation with id `i` (empty if unallocated). -/
def fieldsOf (h : Heap) (i : Nat) : List Nat :=
  ((List.lookup i h).map Alloc.fields).getD []

/-- The strong reference count of the allocation with id `i`, i.e. the value
read by `AllocationId::count` (0 if unallocated). -/
def refCountOf (h : Heap) (i : Nat) : Nat :=
  ((List.lookup i h).map Alloc.refCount).getD 0

/-- The number of `Gc` references to `i` held inside the allocations listed
in `V`: the total number of occurrences of `i` among their fields. -/
def edgesInto (h : Heap) (V : List Nat) (i : Nat) : Nat :=
  (V.map fun v => (fieldsOf h v).count i).sum

/-- The number of `Gc` references to `i` held anywhere in the heap. -/
def edgesTo (h : Heap) (i : Nat) : Nat := edgesInto h (heapKeys h) i

/-- Well-formedness of a heap: ids are unambiguous and every `Gc` field
points at an allocated block. -/
def WF (h : Heap) : Prop :=
  (heapKeys h).Nodup ∧ ∀ p ∈ h, ∀ f ∈ p.2.fields, isAlloc h f = true

/-- Count consistency (spec §3: the strong reference count equals the number
of live `Gc` handles pointing at the box, including the handles stored in
other boxes): the in-heap references to an allocation never exceed its
strong count. -/
def Consistent (h : Heap) : Prop := ∀ p ∈ h, edgesTo h p.1 ≤ p.2.refCount

/-- Every `accept` call on this heap succeeds. -/
def NoErr (h : Heap) : Prop := ∀ p ∈ h, p.2.acceptErr = false

/-- Reachability along `Gc` fields (reflexive-transitive). -/
inductive Reaches (h : Heap) : Nat → Nat → Prop where
  | refl (x : Nat) : Reaches h x x
  | step {x y z : Nat} {a : Alloc} (hx : List.lookup x h = some a)
      (hy : y ∈ a.fields) (hz : Reaches h y z) : Reaches h x z

/-! ## Pass 1: building the reference graph (`BuildRefGraph`)

`BState.visited` models `BuildRefGraph::visited` and `BState.refState` the
`cyclic_ref_count` entries of `BuildRefGraph::ref_state` (the stored
`ptr`/`sweep_fn` of a `Reachability` record are determined by the id and so
are not tracked separately). -/

/-- The state of `BuildRefGraph`. -/
structure BState where
  visited : List Nat
  refState : List (Nat × Nat)
deriving DecidableEq, Repr

/-- The `cyclic_ref_count` recorded for `i` (0 when absent). -/
def lookupCount (rs : List (Nat × Nat)) (i : Nat) : Nat :=
  (List.lookup i rs).getD 0

/-- `ref_state.entry(t)`: insert `t` with count 1 if vacant, otherwise
saturating-increment its count (`BuildRefGraph::visit_unsync`). -/
def bumpRef (rs : List (Nat × Nat)) (t : Nat) : List (Nat × Nat) :=
  match rs with
  | [] => [(t, 1)]
  | (i, c) :: rest =>
    if i = t then (i, min (c + 1) usizeMax) :: rest
    else (i, c) :: bumpRef rest t

/-- `BuildRefGraph::visit_unsync` applied to one `Gc` field with target `t`:
bump the target's `cyclic_ref_count`, and if the target is newly visited,
recurse into its value's `accept` (dispatching on each of its fields in
order); the recursive `accept(self).unwrap()` turns an `accept` error into a
panic (`none`).  `fuel` bounds the recursion depth. -/
def visitOne (h : Heap) : Nat → BState → Nat → Option BState
  | fuel, s, t =>
    let rs1 := bumpRef s.refState t
    if t ∈ s.visited then some ⟨s.visited, rs1⟩
    else
      match fuel with
      | 0 => none
      | fuel1 + 1 =>
        match List.lookup t h with
        | none => none
        | some a =>
          match List.foldlM (fun st u => visitOne h fuel1 st u)
              (⟨t :: s.visited, rs1⟩ : BState) a.fields with
          | none => none
          | some s2 => if a.acceptErr then none else some s2

/-- Dispatch the build visitor on a list of `Gc` fields in order. -/
def visitMany (h : Heap) (fuel : Nat) (s : BState) (ts : List Nat) :
    Option BState :=
  List.foldlM (fun st u => visitOne h fuel st u) s ts

/-- The top-level loop of Pass 1 (`Dumpster::collect_all`, first `for`):
for every registered id not yet visited, insert it into `visited` and run
its `build_graph_fn`.  The top-level `apply_visitor` discards the result of
`accept` (`let _ = ...`), so a top-level `accept` error is not a panic. -/
def pass1Go (h : Heap) (fuel : Nat) : BState → List Nat → Option BState
  | s, [] => some s
  | s, k :: ks =>
    if k ∈ s.visited then pass1Go h fuel s ks
    else
      match List.lookup k h with
      | none => none
      | some a =>
        match visitMany h fuel ⟨k :: s.visited, s.refState⟩ a.fields with
        | none => none
        | some s2 => pass1Go h fuel s2 ks

/-- Pass 1 on the registered ids `order` (the iteration order of the
`to_collect` map), starting from the empty state. -/
def pass1 (h : Heap) (order : List Nat) (fuel : Nat) : Option BState :=
  pass1Go h fuel ⟨[], []⟩ order

/-! ## Pass 2: the reachability sweep (`Sweep`) -/

/-- The sweep roots, in invocation order (`Dumpster::collect_all`, second
and third `for` loops): first every `ref_state` entry whose current strong
count differs from its recorded `cyclic_ref_count`
(`id.count() != reachability.cyclic_ref_count`), then every registered id
that never appeared in `ref_state`. -/
def sweepRoots (h : Heap) (order : List Nat) (s : BState) : List Nat :=
  (s.refState.filter fun p => refCountOf h p.1 != p.2).map Prod.fst
    ++ order.filter fun k => (List.lookup k s.refState).isNone

/-- `Sweep::visit_unsync` applied to one `Gc` field with target `t`: if `t`
is newly inserted into the visited set, recurse into its value's `accept`;
the recursive `accept(self).unwrap()` turns an `accept` error into a panic
(`none`). -/
def sweepOne (h : Heap) : Nat → List Nat → Nat → Option (List Nat)
  | fuel, vis, t =>
    if t ∈ vis then some vis
    else
      match fuel with
      | 0 => none
      | fuel1 + 1 =>
        match List.lookup t h with
        | none => none
        | some a =>
          match List.foldlM (fun st u => sweepOne h fuel1 st u)
              (t :: vis) a.fields with
          | none => none
          | some vis2 => if a.acceptErr then none else some vis2

/-- Dispatch the sweep visitor on a list of `Gc` fields in order. -/
def sweepMany (h : Heap) (fuel : Nat) (vis : List Nat) (ts : List Nat) :
    Option (List Nat) :=
  List.foldlM (fun st u => sweepOne h fuel st u) vis ts

/-- The root loops of Pass 2: for each root, insert it into
`sweep.visited` (a no-op if present) and run its `sweep_fn`; the top-level
`apply_visitor` discards the final result of `accept`. -/
def pass2Go (h : Heap) (fuel : Nat) : List Nat → List Nat → Option (List Nat)
  | vis, [] => some vis
  | vis, g :: gs =>
    let vis1 := if g ∈ vis then vis else g :: vis
    match List.lookup g h with
    | none => none
    | some a =>
      match sweepMany h fuel vis1 a.fields with
      | none => none
      | some vis2 => pass2Go h fuel vis2 gs

/-! ## Pass 3: destruction (`DestroyGcs`)

`DState.visited` models `DestroyGcs::visited` and `DState.queue` the ids of
the allocations whose `(address, layout)` pairs were pushed onto
`DestroyGcs::collection_queue` (in push order); pushing happens exactly once
per executed destroy body, so `queue` also lists the allocations whose
destroy body ran.  Field nulling (`gc.ptr = None`) is not tracked: each
`Gc` field slot is visited at most once per collection (its owner's destroy
body runs at most once), so every visit finds the pointer still `Some`. -/

/-- The state of `DestroyGcs` (the fixed `reachable` set is passed
separately). -/
structure DState where
  visited : List Nat
  queue : List Nat
deriving DecidableEq, Repr

/-- `DestroyGcs::visit_unsync` applied to one `Gc` field with target `f`:
null the field, and if `f` is unreachable and newly visited, zero its count,
recurse into its value's `destroy_gcs`, and push its address and layout onto
the collection queue. -/
def destroyOne (h : Heap) (reach : List Nat) : Nat → DState → Nat → Option DState
  | fuel, s, f =>
    if f ∈ reach then some s
    else if f ∈ s.visited then some s
    else
      match fuel with
      | 0 => none
      | fuel1 + 1 =>
        match List.lookup f h with
        | none => none
        | some a =>
          match List.foldlM (fun st u => destroyOne h reach fuel1 st u)
              (⟨f :: s.visited, s.queue⟩ : DState) a.fields with
          | none => none
          | some s2 => some ⟨s2.visited, s2.queue ++ [f]⟩

/-- Dispatch the destroyer on a list of `Gc` fields in order. -/
def destroyMany (h : Heap) (reach : List Nat) (fuel : Nat) (s : DState)
    (ts : List Nat) : Option DState :=
  List.foldlM (fun st u => destroyOne h reach fuel st u) s ts

/-- The drain loop of Pass 3 (`Dumpster::collect_all`, fourth `for`): for
every drained registry entry that is unreachable and newly visited, run its
`destroy_gcs_fn` (zero the count, destroy the value's `Gc` fields, push the
address and layout). -/
def pass3Go (h : Heap) (reach : List Nat) (fuel : Nat) :
    DState → List Nat → Option DState
  | s, [] => some s
  | s, k :: ks =>
    if k ∈ reach ∨ k ∈ s.visited then pass3Go h reach fuel s ks
    else
      match List.lookup k h with
      | none => none
      | some a =>
        match destroyMany h reach fuel ⟨k :: s.visited, s.queue⟩ a.fields with
        | none => none
        | some s2 => pass3Go h reach fuel ⟨s2.visited, s2.queue ++ [k]⟩ ks

/-! ## The whole collection (`Dumpster::collect_all`) -/

/-- The observable outcome of one run of `collect_all`: the Pass 1 visited
set and `ref_state`, the sweep roots, the reachable set, and the ids whose
destroy body ran and whose memory was then deallocated (the collection
queue, in push order). -/
structure CollectResult where
  walked : List Nat
  refState : List (Nat × Nat)
  roots : List Nat
  reachable : List Nat
  queue : List Nat
deriving DecidableEq, Repr

/-- One run of `Dumpster::collect_all` over the registered ids `order` (the
`to_collect` map is not modified between its three traversals, so all three
see the same iteration order).  `none` models a panic (or exhausted fuel, a
model artifact). -/
def collectAll (h : Heap) (order : List Nat) (fuel : Nat) :
    Option CollectResult :=
  match pass1 h order fuel with
  | none => none
  | some s =>
    match pass2Go h fuel [] (sweepRoots h order s) with
    | none => none
    | some reach =>
      match pass3Go h reach fuel ⟨[], []⟩ order with
      | none => none
      | some d => some ⟨s.visited, s.refState, sweepRoots h order s, reach, d.queue⟩

/-! ## The trigger policy (`notify_dropped_gc` / `notify_created_gc`)

The bookkeeping state of the thread-local `Dumpster`, at the granularity the
trigger policy observes: the registered ids (`to_collect`) and the two
counters (`n_ref_drops`, `n_refs_living`). -/

/-- The thread-local `Dumpster`'s bookkeeping state. -/
structure UnsyncState where
  toCollect : List Nat
  nRefDrops : Nat
  nRefsLiving : Nat
deriving DecidableEq, Repr

/-- The effect of `Dumpster::collect_all` on the bookkeeping state: its
first statement sets `n_ref_drops` to 0, Pass 3 drains `to_collect`, and the
number of living references is untouched (every `Gc` field of a destroyed
value is nulled by the destroyer before the value's destructor runs, so the
destructor's `Gc` drops are no-ops). -/
def collectAllEffect (s : UnsyncState) : UnsyncState := ⟨[], 0, s.nRefsLiving⟩

/-- `Dumpster::notify_dropped_gc`: increment `n_ref_drops`; abort (`none`)
if no references were living (`assert_ne!`); decrement `n_refs_living`; then
collect iff `n_ref_drops << 1 >= n_refs_living`.  The returned flag records
whether `collect_all` was invoked. -/
def notifyDroppedGc (s : UnsyncState) : Option (UnsyncState × Bool) :=
  let s1 : UnsyncState := ⟨s.toCollect, s.nRefDrops + 1, s.nRefsLiving⟩
  if s1.nRefsLiving = 0 then none
  else
    let s2 : UnsyncState := ⟨s1.toCollect, s1.nRefDrops, s1.nRefsLiving - 1⟩
    if s2.nRefDrops <<< 1 ≥ s2.nRefsLiving then some (collectAllEffect s2, true)
    else some (s2, false)

/-- `Dumpster::notify_created_gc`: increment `n_refs_living`.  The returned
flag records whether `collect_all` was invoked (its body contains no call,
so the flag is `false`). -/
def notifyCreatedGc (s : UnsyncState) : UnsyncState × Bool :=
  (⟨s.toCollect, s.nRefDrops, s.nRefsLiving + 1⟩, false)

/-! ## The type-erased pointer (`ErasedPtr`)

A pointer of type `*T` is modelled by its byte representation, a list of at
most 16 bytes (two 8-byte machine words; a thin pointer has 8, a fat one
16).  `ErasedPtr::new` asserts the size bound and copies the pointer's bytes
over a zero-initialised two-word buffer; `ErasedPtr::specify` copies the
first `size_of::<NonNull<T>>()` bytes back out of the buffer. -/

/-- `ErasedPtr::new`: `none` models the `assert!` panic for an over-wide
pointer; otherwise the 16-byte buffer holding the pointer's bytes followed
by the remaining zeros of `ErasedPtr([0; 2])`. -/
def erasedPtrNew (p : List Nat) : Option (List Nat) :=
  if p.length ≤ 16 then some (p ++ List.replicate (16 - p.length) 0) else none

/-- `ErasedPtr::specify` back to a type whose pointers have `n` bytes: read
the first `n` bytes of the buffer. -/
def erasedSpecify (n : Nat) (e : List Nat) : List Nat := e.take n

/-! ## The shared (sync) dumpster's hash table
(`src/dumpster/src/sync/collect/dumpster.rs`)

The table is modelled sequentially: a CAS on a key slot is an atomic
read-and-conditional-write, and one operation runs at a time.  Keys
(`AllocationId` pointers, always non-null) are positive `Nat`s; the hash of
the key is an explicit parameter (`DefaultHasher` is opaque).  The index
computation `(hash_idx + offset) & (TABLE_SIZE - 1)` is written
`% TABLE_SIZE`, which is the same operation since `TABLE_SIZE` is a power of
two. -/

/-- The size of the dumpster hash table (`1 << 12`). -/
def TABLE_SIZE : Nat := 1 <<< 12

/-- The shared dumpster table: the key slots, the value cells, and the
live-entry counter `n_entries`.  A `none` key slot is a null pointer. -/
structure STable where
  keys : List (Option Nat)
  vals : List Nat
  nEntries : Nat
deriving DecidableEq, Repr

/-- The outcome of `Dumpster::try_insert`: `Ok(true)`, `Ok(false)`, or
`Err(())`. -/
inductive InsertResult where
  | inserted
  | alreadyPresent
  | full
deriving DecidableEq, Repr

/-- The key slot probed at `offset` for a key hashing to `hashIdx`. -/
def slotAt (t : STable) (hashIdx offset : Nat) : Option Nat :=
  t.keys.getD ((hashIdx + offset) % TABLE_SIZE) none

/-- The probe loop of `Dumpster::try_insert`, with `r` probes remaining
starting at `offset`: CAS(null → key) on the probed slot; on success write
the value cell and bump `n_entries`; if the slot already holds `key`, stop
without touching the value; otherwise keep probing.  A full sweep without
success returns `full`. -/
def tryInsertLoop (t : STable) (key value hashIdx : Nat) :
    Nat → Nat → InsertResult × STable
  | _, 0 => (.full, t)
  | offset, r + 1 =>
    let idx := (hashIdx + offset) % TABLE_SIZE
    match t.keys.getD idx none with
    | none =>
      (.inserted, ⟨t.keys.set idx (some key), t.vals.set idx value,
        t.nEntries + 1⟩)
    | some k =>
      if k = key then (.alreadyPresent, t)
      else tryInsertLoop t key value hashIdx (offset + 1) r

/-- `Dumpster::try_insert`: probe all `TABLE_SIZE` offsets from 0. -/
def tryInsert (t : STable) (key value hashIdx : Nat) : InsertResult × STable :=
  tryInsertLoop t key value hashIdx 0 TABLE_SIZE

/-- `Dumpster::len`: the live-entry counter. -/
def len (t : STable) : Nat := t.nEntries

/-- `Dumpster::is_full`: `self.len() >= (TABLE_SIZE / 2)`. -/
def isFull (t : STable) : Bool := decide (len t ≥ TABLE_SIZE / 2)

instance (h : Heap) : Decidable (WF h) := by unfold WF; infer_instance

instance (h : Heap) : Decidable (Consistent h) := by
  unfold Consistent; infer_instance

instance (h : Heap) : Decidable (NoErr h) := by unfold NoErr; infer_instance

/-! ## Concrete heaps used to instantiate the theorems -/

/-- A heap with an externally rooted chain into a cycle: allocation 0 has a
reference from the stack (count 1, no in-heap references) and points at 1;
allocations 1 and 2 form a chain 1 → 2 → 1. -/
def rootedHeap : Heap :=
  [(0, ⟨1, [1], false⟩), (1, ⟨2, [2], false⟩), (2, ⟨1, [1], false⟩)]

/-- A default collection result, used only to extract concrete run results.
-/
def emptyResult : CollectResult := ⟨[], [], [], [], []⟩

/-- The Pass 1 state of the run over `rootedHeap` with registered ids 1 and
2. -/
def run1 : BState := (pass1 rootedHeap [1, 2] 9).getD ⟨[], []⟩

/-- The result of the collection run over `rootedHeap`. -/
def runRes1 : CollectResult := (collectAll rootedHeap [1, 2] 9).getD emptyResult

/-- A heap of two unreachable self-cycles (0 and 1) sharing the tail
allocation 2. -/
def sharedTailHeap : Heap :=
  [(0, ⟨1, [0, 2], false⟩), (1, ⟨1, [1, 2], false⟩), (2, ⟨2, [], false⟩)]

/-- The result of the collection run over `sharedTailHeap`. -/
def runRes6 : CollectResult :=
  (collectAll sharedTailHeap [0, 1, 2] 9).getD emptyResult

/-- A registered allocation 0 whose `Gc` field points at allocation 1, whose
`accept` reports an error (for instance, a value locked against
inspection). -/
def errHeap : Heap := [(0, ⟨1, [1], false⟩), (1, ⟨1, [], true⟩)]

/-- An empty shared-dumpster table with all slots null. -/
def emptyTable : STable :=
  ⟨List.replicate TABLE_SIZE none, List.replicate TABLE_SIZE 0, 0⟩

/-- A shared-dumpster table whose live-entry counter is exactly half the
table size (reached after 2048 successful inserts). -/
def halfFullTable : STable :=
  ⟨List.replicate TABLE_SIZE none, List.replicate TABLE_SIZE 0, TABLE_SIZE / 2⟩

/-- The behavior of `Dumpster::try_insert` on a table state: if it returns
`inserted`, the first probed slot that was null — with every earlier probed
slot occupied by a key other than the inserted one — was claimed, the value
cell written, and the live-entry counter incremented; if it returns
`alreadyPresent`, some probed slot already held the key, every earlier
probed slot held some other key, and the table (value cells included) is
untouched; if it returns `full`, all `TABLE_SIZE` probed slots held other
keys and the table is untouched. -/
def TryInsertSpec (t : STable) (key value hashIdx : Nat) : Prop :=
  (∀ t2, tryInsert t key value hashIdx = (.inserted, t2) →
    ∃ off, off < TABLE_SIZE ∧ slotAt t hashIdx off = none ∧
      (∀ j, j < off → ∃ k, slotAt t hashIdx j = some k ∧ k ≠ key) ∧
      t2 = ⟨t.keys.set ((hashIdx + off) % TABLE_SIZE) (some key),
        t.vals.set ((hashIdx + off) % TABLE_SIZE) value, t.nEntries + 1⟩)
  ∧ (∀ t2, tryInsert t key value hashIdx = (.alreadyPresent, t2) →
    t2 = t ∧ ∃ off, off < TABLE_SIZE ∧ slotAt t hashIdx off = some key ∧
      (∀ j, j < off → ∃ k, slotAt t hashIdx j = some k ∧ k ≠ key))
  ∧ (∀ t2, tryInsert t key value hashIdx = (.full, t2) →
    t2 = t ∧ ∀ j, j < TABLE_SIZE → ∃ k, slotAt t hashIdx j = some k ∧ k ≠ key)

/-- The invariant maintained by the build-graph walk: the visited set has no
duplicates, every recorded count is a positive machine word, and every id
with a `ref_state` entry has been inserted into the visited set
(`visit_unsync` inserts the target right after bumping it). -/
structure BInv (s : BState) : Prop where
  nodupVis : s.visited.Nodup
  bounded : ∀ i, lookupCount s.refState i ≤ usizeMax
  domVis : ∀ i ∈ s.refState.map Prod.fst, i ∈ s.visited
  nodupKeys : (s.refState.map Prod.fst).Nodup
  posKeys : ∀ i ∈ s.refState.map Prod.fst, 1 ≤ lookupCount s.refState i

/-- What one segment of the build-graph walk does, when dispatched on the
`Gc` targets `ts` from state `s` and ending at state `s2`: the invariant is
preserved, the visited set grows by a fresh block `N` of newly visited
allocated ids (each of which gained a `ref_state` entry), and every
recorded count grows, saturating, by the number of references from `ts`
plus the number of references out of the newly visited allocations. -/
def BuildConc (h : Heap) (s s2 : BState) (ts : List Nat) : Prop :=
  BInv s2 ∧
  ∃ N : List Nat,
    s2.visited = N ++ s.visited ∧
    N.Nodup ∧ (∀ n ∈ N, n ∉ s.visited) ∧
    (∀ n ∈ N, isAlloc h n = true) ∧
    (∀ n ∈ N, n ∈ s2.refState.map Prod.fst) ∧
    (∀ i, lookupCount s2.refState i =
      satAdd (lookupCount s.refState i) (ts.count i + edgesInto h N i))

/-- What one segment of the sweep does, when dispatched on the `Gc` targets
`ts` from visited set `vis` and ending at `vis2`: the set grows, the
targets are marked, and every newly marked id has all its fields marked. -/
def SweepConc (h : Heap) (vis vis2 ts : List Nat) : Prop :=
  (∀ v ∈ vis, v ∈ vis2) ∧ (∀ t ∈ ts, t ∈ vis2) ∧
  (∀ v ∈ vis2, v ∈ vis ∨ ∀ f ∈ fieldsOf h v, f ∈ vis2)

/-- What one segment of the destroy pass does, when dispatched on the `Gc`
targets `l` from state `s` and ending at `s2`: the queue grows by a block
`Δ` of distinct, newly visited, unreachable ids; the visited set grows; and
the new visited ids stay inside any field-closed superset containing the
old visited set and the dispatched targets. -/
def DestroyConc (h : Heap) (reach : List Nat) (s s2 : DState)
    (l : List Nat) : Prop :=
  ∃ Δ : List Nat,
    s2.queue = s.queue ++ Δ ∧ Δ.Nodup ∧
    (∀ d ∈ Δ, d ∉ s.visited ∧ d ∈ s2.visited ∧ d ∉ reach) ∧
    (∀ v ∈ s.visited, v ∈ s2.visited) ∧
    (∀ V : List Nat, (∀ x ∈ V, ∀ f ∈ fieldsOf h x, f ∈ V) →
      (∀ v ∈ s.visited, v ∈ V) → (∀ f ∈ l, f ∈ V) →
      ∀ v ∈ s2.visited, v ∈ V)

/-! ## Theorems -/

/-- Claim C10: `notify_created_gc` increments the live-Gcs counter by
exactly one and changes nothing else — the drops-since-last-collect counter
and the `to_collect` registry are unchanged, and it never invokes
`collect_all`. -/
theorem notify_created_frame (s : UnsyncState) :
    (notifyCreatedGc s).1.nRefsLiving = s.nRefsLiving + 1 ∧
    (notifyCreatedGc s).1.nRefDrops = s.nRefDrops ∧
    (notifyCreatedGc s).1.toCollect = s.toCollect ∧
    (notifyCreatedGc s).2 = false :=
  ⟨rfl, rfl, rfl, rfl⟩

/-- Claim C5: with at least one living reference (otherwise the
`assert_ne!` aborts before the decrement), `notify_dropped_gc` invokes
`collect_all` if and only if, after incrementing drops-since-last-collect
and decrementing live-Gcs, twice the drop counter is at least the living
counter; and every call to `collect_all` resets drops-since-last-collect to
zero. -/
theorem notify_dropped_triggers_iff (s : UnsyncState) (hl : s.nRefsLiving ≠ 0) :
    ((notifyDroppedGc s).map Prod.snd = some true ↔
      2 * (s.nRefDrops + 1) ≥ s.nRefsLiving - 1)
    ∧ (∀ u : UnsyncState, (collectAllEffect u).nRefDrops = 0) := by
  refine ⟨?_, fun u => rfl⟩
  simp only [notifyDroppedGc, hl, if_false, Nat.shiftLeft_eq, pow_one]
  split_ifs with hcond
  · simpa using by omega
  · simpa using by omega

/-- Witness for claim C5 at a concrete counter state. -/
theorem notify_dropped_triggers_iff_witness :
    (⟨[], 0, 1⟩ : UnsyncState).nRefsLiving ≠ 0 ∧
    (((notifyDroppedGc ⟨[], 0, 1⟩).map Prod.snd = some true ↔
        2 * ((⟨[], 0, 1⟩ : UnsyncState).nRefDrops + 1) ≥
          (⟨[], 0, 1⟩ : UnsyncState).nRefsLiving - 1)
      ∧ (∀ u : UnsyncState, (collectAllEffect u).nRefDrops = 0)) :=
  ⟨by decide, notify_dropped_triggers_iff ⟨[], 0, 1⟩ (by decide)⟩

/-- Claim C7: erasing a pointer of at most two machine words (16 bytes)
with `ErasedPtr::new` and specifying back with the same type recovers the
pointer exactly, bit for bit. -/
theorem erased_roundtrip (p : List Nat) (hp : p.length ≤ 16) :
    (erasedPtrNew p).map (erasedSpecify p.length) = some p := by
  simp only [erasedPtrNew, hp, if_true, Option.map_some]
  simp [erasedSpecify, List.take_left]

/-- Witness for claim C7 at a concrete (thin, 8-byte) pointer. -/
theorem erased_roundtrip_witness :
    ([1, 2, 3, 4, 5, 6, 7, 8] : List Nat).length ≤ 16 ∧
    (erasedPtrNew [1, 2, 3, 4, 5, 6, 7, 8]).map (erasedSpecify 8) =
      some [1, 2, 3, 4, 5, 6, 7, 8] :=
  ⟨by decide, erased_roundtrip [1, 2, 3, 4, 5, 6, 7, 8] (by decide)⟩

/-- Claim C9, counterexample: at a live-entry counter of exactly half the
table size, `is_full` returns `true` although the counter does not strictly
exceed half the table size, so the claimed iff fails at this table state. -/
theorem is_full_at_half_cex :
    ¬ (isFull halfFullTable = true ↔ len halfFullTable > TABLE_SIZE / 2) := by
  decide

/-- Claim C9 as amended: `is_full` returns `true` iff the live-entry
counter is at least half the table size (`len >= TABLE_SIZE / 2`). -/
theorem is_full_iff_at_least_half (t : STable) :
    isFull t = true ↔ len t ≥ TABLE_SIZE / 2 := by
  simp [isFull]

/-- Claim C2: contrary to the claim, an `accept` error during the
build-graph pass does not leave the allocation alone and continue — the
`accept(self).unwrap()` in `BuildRefGraph::visit_unsync` panics, aborting
the collection (the same `unwrap` appears in `Sweep::visit_unsync`).  On
`errHeap` (registered allocation 0 whose field points at allocation 1 whose
`accept` errs), `collect_all` panics for every recursion depth. -/
theorem collect_panics_on_accept_error (fuel : Nat) :
    collectAll errHeap [0] fuel = none := by
  cases fuel <;> rfl

/-- The probe loop of `try_insert`, characterized: starting at `offset`
with `r` probes remaining and every earlier probed slot known to hold a
non-matching key, the loop claims the first null probed slot, stops at a
slot holding the key, or reports the table full after probing everything. -/
theorem tryInsertLoop_spec (t : STable) (key value hashIdx : Nat) :
    ∀ r offset, offset + r = TABLE_SIZE →
    (∀ j, j < offset → ∃ k, slotAt t hashIdx j = some k ∧ k ≠ key) →
    (∀ t2, tryInsertLoop t key value hashIdx offset r = (.inserted, t2) →
      ∃ off, off < TABLE_SIZE ∧ slotAt t hashIdx off = none ∧
        (∀ j, j < off → ∃ k, slotAt t hashIdx j = some k ∧ k ≠ key) ∧
        t2 = ⟨t.keys.set ((hashIdx + off) % TABLE_SIZE) (some key),
          t.vals.set ((hashIdx + off) % TABLE_SIZE) value, t.nEntries + 1⟩)
    ∧ (∀ t2, tryInsertLoop t key value hashIdx offset r = (.alreadyPresent, t2) →
      t2 = t ∧ ∃ off, off < TABLE_SIZE ∧ slotAt t hashIdx off = some key ∧
        (∀ j, j < off → ∃ k, slotAt t hashIdx j = some k ∧ k ≠ key))
    ∧ (∀ t2, tryInsertLoop t key value hashIdx offset r = (.full, t2) →
      t2 = t ∧ ∀ j, j < TABLE_SIZE → ∃ k, slotAt t hashIdx j = some k ∧ k ≠ key) := by
  intro r
  induction r with
  | zero =>
    intro offset hsum hinv
    refine ⟨fun t2 he => ?_, fun t2 he => ?_, fun t2 he => ?_⟩
    · simp [tryInsertLoop] at he
    · simp [tryInsertLoop] at he
    · simp only [tryInsertLoop, Prod.mk.injEq] at he
      exact ⟨he.2.symm, fun j hj => hinv j (by omega)⟩
  | succ r ih =>
    intro offset hsum hinv
    have hoff : offset < TABLE_SIZE := by omega
    rcases hslot : t.keys.getD ((hashIdx + offset) % TABLE_SIZE) none with _ | k
    · refine ⟨fun t2 he => ?_, fun t2 he => ?_, fun t2 he => ?_⟩ <;>
        simp only [tryInsertLoop, hslot, Prod.mk.injEq] at he
      · exact ⟨offset, hoff, hslot, hinv, he.2.symm⟩
      · exact InsertResult.noConfusion he.1
      · exact InsertResult.noConfusion he.1
    · by_cases hk : k = key
      · subst hk
        refine ⟨fun t2 he => ?_, fun t2 he => ?_, fun t2 he => ?_⟩ <;>
          (simp only [tryInsertLoop, hslot, if_true] at he;
            rw [Prod.mk.injEq] at he)
        · exact InsertResult.noConfusion he.1
        · exact ⟨he.2.symm, offset, hoff, hslot, hinv⟩
        · exact InsertResult.noConfusion he.1
      · have hrec := ih (offset + 1) (by omega) (fun j hj => by
          rcases Nat.lt_or_ge j offset with hlt | hge
          · exact hinv j hlt
          · have hje : j = offset := by omega
            exact hje ▸ ⟨k, hslot, hk⟩)
        refine ⟨fun t2 he => ?_, fun t2 he => ?_, fun t2 he => ?_⟩ <;>
          (simp only [tryInsertLoop, hslot] at he; rw [if_neg hk] at he)
        · exact hrec.1 t2 he
        · exact hrec.2.1 t2 he
        · exact hrec.2.2 t2 he

/-- Claim C8: `try_insert` on any table state returns "inserted" exactly by
claiming the first probed null slot, writing the value cell and bumping the
live-entry counter; returns "already present" without touching the table
when a probed slot already holds the key; and returns "full" only after all
`2^12` probed slots held other keys. -/
theorem try_insert_spec (t : STable) (key value hashIdx : Nat)
    (hlen : t.keys.length = TABLE_SIZE) : TryInsertSpec t key value hashIdx := by
  have h0 : (0 : Nat) + TABLE_SIZE = TABLE_SIZE := by omega
  have hinv : ∀ j, j < 0 → ∃ k, slotAt t hashIdx j = some k ∧ k ≠ key :=
    fun j hj => absurd hj (Nat.not_lt_zero j)
  exact tryInsertLoop_spec t key value hashIdx TABLE_SIZE 0 h0 hinv

/-- Witness for claim C8: inserting into the empty table. -/
theorem try_insert_spec_witness :
    emptyTable.keys.length = TABLE_SIZE ∧ TryInsertSpec emptyTable 5 7 3 :=
  ⟨by simp [emptyTable], try_insert_spec emptyTable 5 7 3 (by simp [emptyTable])⟩

/-! ### Saturating-arithmetic lemmas -/

theorem usizeMax_pos : 0 < usizeMax := by decide

theorem satAdd_zero {a : Nat} (h : a ≤ usizeMax) : satAdd a 0 = a := by
  simp only [satAdd, Nat.add_zero]
  exact Nat.min_eq_left h

theorem satAdd_le_usizeMax (a k : Nat) : satAdd a k ≤ usizeMax :=
  Nat.min_le_right _ _

theorem satAdd_satAdd (a j k : Nat) :
    satAdd (satAdd a j) k = satAdd a (j + k) := by
  have hM := usizeMax_pos
  simp only [satAdd, Nat.min_def]
  split_ifs <;> omega

theorem one_le_satAdd {a k : Nat} (h : 1 ≤ a + k) : 1 ≤ satAdd a k := by
  have hM := usizeMax_pos
  simp only [satAdd, Nat.min_def]
  split_ifs <;> omega

theorem satAdd_congr (a : Nat) {j k : Nat} (h : j = k) :
    satAdd a j = satAdd a k := by rw [h]

/-! ### Association-list lemmas -/

theorem lookup_mem {β : Type _} {l : List (Nat × β)} {i : Nat} {b : β}
    (h : List.lookup i l = some b) : (i, b) ∈ l := by
  induction l with
  | nil => simp [List.lookup] at h
  | cons p rest ih =>
    obtain ⟨k, v⟩ := p
    rw [List.lookup] at h
    by_cases hik : i = k
    · subst hik
      simp at h
      subst h
      exact List.mem_cons_self _ _
    · have hbeq : (i == k) = false := by simpa using hik
      rw [hbeq] at h
      exact List.mem_cons_of_mem _ (ih h)

theorem lookup_isSome_iff {β : Type _} {l : List (Nat × β)} {i : Nat} :
    (List.lookup i l).isSome = true ↔ i ∈ l.map Prod.fst := by
  induction l with
  | nil => simp [List.lookup]
  | cons p rest ih =>
    obtain ⟨k, v⟩ := p
    rw [List.lookup]
    by_cases hik : i = k
    · subst hik; simp
    · have hbeq : (i == k) = false := by simpa using hik
      rw [hbeq]
      simp [hik, ih]

theorem lookup_eq_none_iff {β : Type _} {l : List (Nat × β)} {i : Nat} :
    List.lookup i l = none ↔ i ∉ l.map Prod.fst := by
  rw [← lookup_isSome_iff]
  cases List.lookup i l <;> simp

theorem mem_lookup_of_nodup {β : Type _} {l : List (Nat × β)}
    (hn : (l.map Prod.fst).Nodup) {i : Nat} {b : β} (hm : (i, b) ∈ l) :
    List.lookup i l = some b := by
  induction l with
  | nil => simp at hm
  | cons p rest ih =>
    obtain ⟨k, v⟩ := p
    simp only [List.map_cons, List.nodup_cons] at hn
    rcases List.mem_cons.mp hm with heq | hmem
    · rw [Prod.mk.injEq] at heq
      obtain ⟨hik, hbv⟩ := heq
      subst hik; subst hbv
      rw [List.lookup]
      simp
    · have hik : i ≠ k := by
        rintro rfl
        exact hn.1 (List.mem_map_of_mem Prod.fst hmem)
      rw [List.lookup]
      have hbeq : (i == k) = false := by simpa using hik
      rw [hbeq]
      exact ih hn.2 hmem

theorem mem_dom_of_lookupCount_pos {rs : List (Nat × Nat)} {i : Nat}
    (h1 : 1 ≤ lookupCount rs i) : i ∈ rs.map Prod.fst := by
  by_contra hni
  rw [← lookup_eq_none_iff] at hni
  simp [lookupCount, hni] at h1

theorem lookupCount_pos_of_mem_dom {rs : List (Nat × Nat)} {i : Nat}
    (hm : i ∈ rs.map Prod.fst) : 1 ≤ lookupCount rs i ∨
      ∃ c, List.lookup i rs = some c ∧ lookupCount rs i = c := by
  rcases hs : List.lookup i rs with _ | c
  · exact absurd hm (lookup_eq_none_iff.mp hs)
  · exact Or.inr ⟨c, rfl, by simp [lookupCount, hs]⟩

/-! ### `bumpRef` lemmas -/

theorem lookupCount_bumpRef (rs : List (Nat × Nat)) (t i : Nat) :
    lookupCount (bumpRef rs t) i =
      if i = t then satAdd (lookupCount rs i) 1 else lookupCount rs i := by
  induction rs with
  | nil =>
    by_cases hit : i = t
    · subst hit
      simp [bumpRef, lookupCount, List.lookup, satAdd]
      exact usizeMax_pos
    · have hbeq : (i == t) = false := by simpa using hit
      simp [bumpRef, lookupCount, List.lookup, hbeq, hit]
  | cons p rest ih =>
    obtain ⟨k, c⟩ := p
    by_cases hkt : k = t
    · subst hkt
      by_cases hik : i = k
      · subst hik
        simp [bumpRef, lookupCount, List.lookup, satAdd]
      · have hbeq : (i == k) = false := by simpa using hik
        simp [bumpRef, lookupCount, List.lookup, hbeq, hik]
    · by_cases hik : i = k
      · subst hik
        simp [bumpRef, hkt, lookupCount, List.lookup]
      · have hbeq : (i == k) = false := by simpa using hik
        have hif : ¬ (k = t) := hkt
        simp only [bumpRef, if_neg hif, lookupCount, List.lookup, hbeq] at *
        exact ih

theorem bumpRef_keys (rs : List (Nat × Nat)) (t : Nat) :
    (bumpRef rs t).map Prod.fst =
      if t ∈ rs.map Prod.fst then rs.map Prod.fst
      else rs.map Prod.fst ++ [t] := by
  induction rs with
  | nil => simp [bumpRef]
  | cons p rest ih =>
    obtain ⟨k, c⟩ := p
    by_cases hkt : k = t
    · subst hkt
      simp [bumpRef]
    · have hif : ¬ (k = t) := hkt
      by_cases hmem : t ∈ rest.map Prod.fst
      · simp [bumpRef, hif, ih, hmem, Ne.symm hkt]
      · simp [bumpRef, hif, ih, hmem, Ne.symm hkt]

theorem bumpRef_keys_nodup {rs : List (Nat × Nat)}
    (hn : (rs.map Prod.fst).Nodup) (t : Nat) :
    ((bumpRef rs t).map Prod.fst).Nodup := by
  rw [bumpRef_keys]
  split_ifs with hmem
  · exact hn
  · simp [List.nodup_append, hn, hmem]

/-! ### `edgesInto` lemmas -/

theorem edgesInto_nil (h : Heap) (i : Nat) : edgesInto h [] i = 0 := rfl

theorem edgesInto_cons (h : Heap) (v : Nat) (V : List Nat) (i : Nat) :
    edgesInto h (v :: V) i = (fieldsOf h v).count i + edgesInto h V i := by
  simp [edgesInto]

theorem edgesInto_append (h : Heap) (V1 V2 : List Nat) (i : Nat) :
    edgesInto h (V1 ++ V2) i = edgesInto h V1 i + edgesInto h V2 i := by
  simp [edgesInto]

theorem count_single (i t : Nat) :
    List.count i [t] = if i = t then 1 else 0 := by
  by_cases h : i = t <;> simp [List.count_cons, h]

theorem le_edgesInto_of_mem {h : Heap} {V : List Nat} {v i : Nat}
    (hv : v ∈ V) (hi : i ∈ fieldsOf h v) : 1 ≤ edgesInto h V i := by
  have hc : 1 ≤ (fieldsOf h v).count i := List.one_le_count_iff.mpr hi
  have hmem : (fieldsOf h v).count i ∈ V.map fun w => (fieldsOf h w).count i :=
    List.mem_map_of_mem _ hv
  calc 1 ≤ (fieldsOf h v).count i := hc
    _ ≤ edgesInto h V i := List.single_le_sum (fun x _ => Nat.zero_le x) _ hmem

/-! ### Unfolding lemmas for the build walk -/

theorem visitMany_nil (h : Heap) (fuel : Nat) (s : BState) :
    visitMany h fuel s [] = some s := rfl

theorem visitMany_cons (h : Heap) (fuel : Nat) (s : BState) (t : Nat)
    (ts : List Nat) :
    visitMany h fuel s (t :: ts) =
      (visitOne h fuel s t).bind fun s1 => visitMany h fuel s1 ts := by
  simp [visitMany, List.foldlM_cons]

theorem visitOne_mem {h : Heap} {fuel : Nat} {s : BState} {t : Nat}
    (hmem : t ∈ s.visited) :
    visitOne h fuel s t = some ⟨s.visited, bumpRef s.refState t⟩ := by
  cases fuel <;> simp [visitOne, hmem]

theorem visitOne_zero_notmem {h : Heap} {s : BState} {t : Nat}
    (hmem : t ∉ s.visited) : visitOne h 0 s t = none := by
  simp [visitOne, hmem]

theorem visitOne_succ_notmem {h : Heap} {fuel1 : Nat} {s : BState} {t : Nat}
    (hmem : t ∉ s.visited) :
    visitOne h (fuel1 + 1) s t =
      match List.lookup t h with
      | none => none
      | some a =>
        match visitMany h fuel1 ⟨t :: s.visited, bumpRef s.refState t⟩
            a.fields with
        | none => none
        | some s2 => if a.acceptErr then none else some s2 := by
  simp [visitOne, hmem, visitMany]

/-! ### Invariant and step lemmas for the build walk -/

theorem BInv_init : BInv ⟨[], []⟩ :=
  ⟨List.nodup_nil, fun _ => Nat.zero_le _, fun _ hi => absurd hi (by simp),
    by simp, fun _ hi => absurd hi (by simp)⟩

theorem BInv_consVis {s : BState} (hinv : BInv s) {k : Nat}
    (hk : k ∉ s.visited) : BInv ⟨k :: s.visited, s.refState⟩ :=
  ⟨List.nodup_cons.mpr ⟨hk, hinv.nodupVis⟩, hinv.bounded,
    fun i hi => List.mem_cons_of_mem _ (hinv.domVis i hi), hinv.nodupKeys,
    hinv.posKeys⟩

theorem BInv_bump {s : BState} (hinv : BInv s) (t : Nat) (V : List Nat)
    (hV : V.Nodup) (hsub : ∀ v ∈ s.visited, v ∈ V) (htV : t ∈ V) :
    BInv ⟨V, bumpRef s.refState t⟩ := by
  refine ⟨hV, fun i => ?_, fun i hi => ?_, bumpRef_keys_nodup hinv.nodupKeys t,
    fun i hi => ?_⟩
  · rw [lookupCount_bumpRef]
    split_ifs
    · exact satAdd_le_usizeMax _ _
    · exact hinv.bounded i
  · rw [bumpRef_keys] at hi
    split_ifs at hi with hmem
    · exact hsub i (hinv.domVis i hi)
    · rcases List.mem_append.mp hi with hi1 | hi2
      · exact hsub i (hinv.domVis i hi1)
      · simp at hi2; subst hi2; exact htV
  · rw [lookupCount_bumpRef]
    split_ifs with hit
    · exact one_le_satAdd (by omega)
    · apply hinv.posKeys i
      rw [bumpRef_keys] at hi
      split_ifs at hi with hmem
      · exact hi
      · rcases List.mem_append.mp hi with hi1 | hi2
        · exact hi1
        · simp at hi2; exact absurd hi2 hit

theorem BuildConc_refl {h : Heap} {s : BState} (hinv : BInv s) :
    BuildConc h s s [] := by
  refine ⟨hinv, [], by simp, List.nodup_nil, by simp, by simp, by simp,
    fun i => ?_⟩
  rw [edgesInto_nil, List.count_nil]
  exact (satAdd_zero (hinv.bounded i)).symm

theorem BuildConc_bump_mem {h : Heap} {s : BState} (hinv : BInv s) {t : Nat}
    (ht : t ∈ s.visited) :
    BuildConc h s ⟨s.visited, bumpRef s.refState t⟩ [t] := by
  refine ⟨BInv_bump hinv t s.visited hinv.nodupVis (fun v hv => hv) ht, [],
    by simp, List.nodup_nil, by simp, by simp, by simp, fun i => ?_⟩
  rw [lookupCount_bumpRef, edgesInto_nil, count_single]
  by_cases hit : i = t
  · simp only [if_pos hit]
  · simp only [if_neg hit, Nat.add_zero]
    exact (satAdd_zero (hinv.bounded i)).symm

theorem BuildConc_new {h : Heap} {s s2 : BState} {t : Nat} {a : Alloc}
    (hinv : BInv s) (hmem : t ∉ s.visited) (ha : List.lookup t h = some a)
    (hconc : BuildConc h ⟨t :: s.visited, bumpRef s.refState t⟩ s2 a.fields) :
    BuildConc h s s2 [t] := by
  obtain ⟨hinv2, N1, hshape, hnodup, hfresh, halloc, hdom, hcounts⟩ := hconc
  have hfieldst : fieldsOf h t = a.fields := by simp [fieldsOf, ha]
  refine ⟨hinv2, N1 ++ [t], ?_, ?_, ?_, ?_, ?_, fun i => ?_⟩
  · rw [hshape]; simp
  · have htN1 : t ∉ N1 := fun hc => hfresh t hc (List.mem_cons_self t s.visited)
    simp [List.nodup_append, hnodup, htN1]
  · intro n hn
    rcases List.mem_append.mp hn with h1 | h2
    · intro hns; exact hfresh n h1 (List.mem_cons_of_mem _ hns)
    · simp at h2; subst h2; exact hmem
  · intro n hn
    rcases List.mem_append.mp hn with h1 | h2
    · exact halloc n h1
    · simp at h2; subst h2; simp [isAlloc, ha]
  · intro n hn
    rcases List.mem_append.mp hn with h1 | h2
    · exact hdom n h1
    · simp at h2
      rw [h2]
      apply mem_dom_of_lookupCount_pos
      rw [hcounts t]
      have hb : 1 ≤ lookupCount (bumpRef s.refState t) t := by
        rw [lookupCount_bumpRef, if_pos rfl]
        exact one_le_satAdd (by omega)
      apply one_le_satAdd
      dsimp only
      omega
  · rw [hcounts i, lookupCount_bumpRef, edgesInto_append, edgesInto_cons,
      edgesInto_nil, hfieldst, count_single]
    by_cases hit : i = t
    · simp only [if_pos hit, satAdd_satAdd]
      exact satAdd_congr _ (by omega)
    · simp only [if_neg hit]
      exact satAdd_congr _ (by omega)

theorem BuildConc_comp {h : Heap} {s s1 s2 : BState} {t : Nat} {ts : List Nat}
    (h1 : BuildConc h s s1 [t]) (h2 : BuildConc h s1 s2 ts) :
    BuildConc h s s2 (t :: ts) := by
  obtain ⟨hinv1, N0, hs0, hnd0, hf0, ha0, hd0, hc0⟩ := h1
  obtain ⟨hinv2, N2, hs2, hnd2, hf2, ha2, hd2, hc2⟩ := h2
  refine ⟨hinv2, N2 ++ N0, ?_, ?_, ?_, ?_, ?_, fun i => ?_⟩
  · rw [hs2, hs0]; simp [List.append_assoc]
  · rw [List.nodup_append]
    exact ⟨hnd2, hnd0,
      fun x hx2 hx0 => hf2 x hx2 (hs0 ▸ List.mem_append_left _ hx0)⟩
  · intro n hn
    rcases List.mem_append.mp hn with hn2 | hn0
    · intro hns; exact hf2 n hn2 (hs0 ▸ List.mem_append_right _ hns)
    · exact hf0 n hn0
  · intro n hn
    rcases List.mem_append.mp hn with hn2 | hn0
    · exact ha2 n hn2
    · exact ha0 n hn0
  · intro n hn
    rcases List.mem_append.mp hn with hn2 | hn0
    · exact hd2 n hn2
    · have hpos : 1 ≤ lookupCount s1.refState n := hinv1.posKeys n (hd0 n hn0)
      apply mem_dom_of_lookupCount_pos
      rw [hc2 n]
      exact one_le_satAdd (by omega)
  · rw [hc2 i, hc0 i, satAdd_satAdd,
      show t :: ts = [t] ++ ts from rfl, List.count_append, edgesInto_append]
    exact satAdd_congr _ (by omega)

theorem visitMany_spec_of_visitOne {h : Heap} {fuel : Nat}
    (hone : ∀ s t s2, visitOne h fuel s t = some s2 → BInv s →
      BuildConc h s s2 [t]) :
    ∀ ts s s2, visitMany h fuel s ts = some s2 → BInv s →
      BuildConc h s s2 ts := by
  intro ts
  induction ts with
  | nil =>
    intro s s2 he hinv
    rw [visitMany_nil] at he
    have hss : s = s2 := Option.some.inj he
    subst hss
    exact BuildConc_refl hinv
  | cons t ts ih =>
    intro s s2 he hinv
    rw [visitMany_cons] at he
    rcases hv : visitOne h fuel s t with _ | s1
    · rw [hv] at he; exact Option.noConfusion he
    · rw [hv] at he
      simp only [Option.some_bind] at he
      have hc1 := hone s t s1 hv hinv
      exact BuildConc_comp hc1 (ih s1 s2 he hc1.1)

theorem build_spec (h : Heap) : ∀ fuel : Nat,
    (∀ s t s2, visitOne h fuel s t = some s2 → BInv s →
      BuildConc h s s2 [t]) ∧
    (∀ ts s s2, visitMany h fuel s ts = some s2 → BInv s →
      BuildConc h s s2 ts) := by
  intro fuel
  induction fuel with
  | zero =>
    have hone : ∀ s t s2, visitOne h 0 s t = some s2 → BInv s →
        BuildConc h s s2 [t] := by
      intro s t s2 he hinv
      by_cases hmem : t ∈ s.visited
      · rw [visitOne_mem hmem] at he
        have hss := Option.some.inj he
        subst hss
        exact BuildConc_bump_mem hinv hmem
      · rw [visitOne_zero_notmem hmem] at he
        exact Option.noConfusion he
    exact ⟨hone, visitMany_spec_of_visitOne hone⟩
  | succ fuel1 ihf =>
    have hone : ∀ s t s2, visitOne h (fuel1 + 1) s t = some s2 → BInv s →
        BuildConc h s s2 [t] := by
      intro s t s2 he hinv
      by_cases hmem : t ∈ s.visited
      · rw [visitOne_mem hmem] at he
        have hss := Option.some.inj he
        subst hss
        exact BuildConc_bump_mem hinv hmem
      · rw [visitOne_succ_notmem hmem] at he
        split at he
        · exact Option.noConfusion he
        · rename_i a ha
          split at he
          · exact Option.noConfusion he
          · rename_i s2m hm
            split at he
            · exact Option.noConfusion he
            · have hss := Option.some.inj he
              subst hss
              have hinvB : BInv ⟨t :: s.visited, bumpRef s.refState t⟩ :=
                BInv_bump hinv t (t :: s.visited)
                  (List.nodup_cons.mpr ⟨hmem, hinv.nodupVis⟩)
                  (fun v hv => List.mem_cons_of_mem _ hv)
                  (List.mem_cons_self t s.visited)
              exact BuildConc_new hinv hmem ha (ihf.2 a.fields _ _ hm hinvB)
    exact ⟨hone, visitMany_spec_of_visitOne hone⟩

theorem pass1Go_spec (h : Heap) (fuel : Nat) :
    ∀ (ks : List Nat) (s s2 : BState), pass1Go h fuel s ks = some s2 →
      BInv s →
      BInv s2 ∧
      ∃ M : List Nat,
        s2.visited = M ++ s.visited ∧
        M.Nodup ∧ (∀ m ∈ M, m ∉ s.visited) ∧
        (∀ m ∈ M, isAlloc h m = true) ∧
        (∀ m ∈ M, m ∈ ks ∨ m ∈ s2.refState.map Prod.fst) ∧
        (∀ i, lookupCount s2.refState i =
          satAdd (lookupCount s.refState i) (edgesInto h M i)) ∧
        (∀ k ∈ ks, k ∈ s2.visited) := by
  intro ks
  induction ks with
  | nil =>
    intro s s2 he hinv
    rw [show pass1Go h fuel s [] = some s from rfl] at he
    have hss := Option.some.inj he
    subst hss
    exact ⟨hinv, [], by simp, List.nodup_nil, by simp, by simp, by simp,
      fun i => by rw [edgesInto_nil]; exact (satAdd_zero (hinv.bounded i)).symm,
      by simp⟩
  | cons k ks ih =>
    intro s s2 he hinv
    by_cases hmem : k ∈ s.visited
    · rw [show pass1Go h fuel s (k :: ks) = pass1Go h fuel s ks from by
        simp [pass1Go, hmem]] at he
      obtain ⟨hinv2, M, hshape, hnd, hfresh, hall, hks, hcounts, hmemks⟩ :=
        ih s s2 he hinv
      refine ⟨hinv2, M, hshape, hnd, hfresh, hall,
        fun m hm => (hks m hm).imp (List.mem_cons_of_mem k) id, hcounts, ?_⟩
      intro k2 hk2
      rcases List.mem_cons.mp hk2 with rfl | hk2tail
      · rw [hshape]; exact List.mem_append_right _ hmem
      · exact hmemks k2 hk2tail
    · rw [show pass1Go h fuel s (k :: ks) =
        (match List.lookup k h with
        | none => none
        | some a =>
          match visitMany h fuel ⟨k :: s.visited, s.refState⟩ a.fields with
          | none => none
          | some s1 => pass1Go h fuel s1 ks) from by simp [pass1Go, hmem]] at he
      split at he
      · exact Option.noConfusion he
      · rename_i a ha
        split at he
        · exact Option.noConfusion he
        · rename_i s1 hm
          have hinvK : BInv ⟨k :: s.visited, s.refState⟩ := BInv_consVis hinv hmem
          have hbc : BuildConc h ⟨k :: s.visited, s.refState⟩ s1 a.fields :=
            (build_spec h fuel).2 a.fields _ s1 hm hinvK
          obtain ⟨hinv1, N1, hshape1, hnd1, hfresh1, hall1, hdom1, hcounts1⟩ := hbc
          dsimp only at hshape1 hfresh1 hcounts1
          obtain ⟨hinv2, M2, hshape2, hnd2, hfresh2, hall2, hks2, hcounts2,
            hmemks2⟩ := ih s1 s2 he hinv1
          have hks1 : k ∈ s1.visited := by
            rw [hshape1]
            exact List.mem_append_right _ (List.mem_cons_self k s.visited)
          have hsubs1 : ∀ v ∈ s.visited, v ∈ s1.visited := fun v hv => by
            rw [hshape1]
            exact List.mem_append_right _ (List.mem_cons_of_mem _ hv)
          have hN1s1 : ∀ n ∈ N1, n ∈ s1.visited := fun n hn => by
            rw [hshape1]
            exact List.mem_append_left _ hn
          have hfieldk : fieldsOf h k = a.fields := by simp [fieldsOf, ha]
          refine ⟨hinv2, M2 ++ N1 ++ [k], ?_, ?_, ?_, ?_, ?_, ?_, ?_⟩
          · rw [hshape2, hshape1]; simp
          · have hkN1 : k ∉ N1 := fun hc =>
              hfresh1 k hc (List.mem_cons_self k s.visited)
            have hkM2 : k ∉ M2 := fun hc => hfresh2 k hc hks1
            have hdisj : ∀ m ∈ M2, m ∉ N1 := fun m hm hn =>
              hfresh2 m hm (hN1s1 m hn)
            simp only [List.append_assoc, List.nodup_append]
            refine ⟨hnd2, ⟨hnd1, by simp [hkN1], ?_⟩, ?_⟩
            · intro x hx1 hx2
              simp at hx2
              subst hx2
              exact hkN1 hx1
            · intro x hx2 hx1
              rcases List.mem_append.mp hx1 with hxa | hxb
              · exact hdisj x hx2 hxa
              · simp at hxb; subst hxb; exact hkM2 hx2
          · intro n hn
            rcases List.mem_append.mp hn with hn1 | hn2
            · rcases List.mem_append.mp hn1 with hna | hnb
              · exact fun hns => hfresh2 n hna (hsubs1 n hns)
              · exact fun hns => hfresh1 n hnb (List.mem_cons_of_mem _ hns)
            · simp at hn2; subst hn2; exact hmem
          · intro n hn
            rcases List.mem_append.mp hn with hn1 | hn2
            · rcases List.mem_append.mp hn1 with hna | hnb
              · exact hall2 n hna
              · exact hall1 n hnb
            · simp at hn2; subst hn2; simp [isAlloc, ha]
          · intro m hm
            rcases List.mem_append.mp hm with hm1 | hm2
            · rcases List.mem_append.mp hm1 with hma | hmb
              · exact (hks2 m hma).imp (List.mem_cons_of_mem k) id
              · refine Or.inr ?_
                have hpos : 1 ≤ lookupCount s1.refState m :=
                  hinv1.posKeys m (hdom1 m hmb)
                apply mem_dom_of_lookupCount_pos
                rw [hcounts2 m]
                exact one_le_satAdd (by omega)
            · simp at hm2; rw [hm2]; exact Or.inl (List.mem_cons_self k ks)
          · intro i
            rw [hcounts2 i, hcounts1 i, satAdd_satAdd, edgesInto_append,
              edgesInto_append, edgesInto_cons, edgesInto_nil, hfieldk]
            exact satAdd_congr _ (by omega)
          · intro k2 hk2
            rcases List.mem_cons.mp hk2 with rfl | hk2tail
            · rw [hshape2]; exact List.mem_append_right _ hks1
            · exact hmemks2 k2 hk2tail

/-- What Pass 1 establishes: the invariant, that every visited id is an
allocated id that was either registered or got a `ref_state` entry, that
every recorded count is the saturated number of in-heap references out of
the visited set, and that every registered id was visited. -/
theorem pass1_spec {h : Heap} {order : List Nat} {fuel : Nat} {s : BState}
    (hp : pass1 h order fuel = some s) :
    BInv s ∧
    (∀ v ∈ s.visited, isAlloc h v = true) ∧
    (∀ v ∈ s.visited, v ∈ order ∨ v ∈ s.refState.map Prod.fst) ∧
    (∀ i, lookupCount s.refState i = min (edgesInto h s.visited i) usizeMax) ∧
    (∀ k ∈ order, k ∈ s.visited) := by
  obtain ⟨hinv2, M, hshape, _, _, hall, hks, hcounts, hmemks⟩ :=
    pass1Go_spec h fuel order ⟨[], []⟩ s hp BInv_init
  dsimp only at hshape hcounts
  have hMvis : s.visited = M := by simpa using hshape
  subst hMvis
  refine ⟨hinv2, hall, hks, fun i => ?_, hmemks⟩
  have hc := hcounts i
  rw [show lookupCount [] i = 0 from rfl] at hc
  rw [hc]
  simp [satAdd]

/-- The Pass 1 visited set is closed under `Gc` fields: every field of a
visited allocation was itself visited (and received a `ref_state` entry). -/
theorem pass1_closed {h : Heap} {order : List Nat} {fuel : Nat} {s : BState}
    (hp : pass1 h order fuel = some s) :
    ∀ v ∈ s.visited, ∀ f ∈ fieldsOf h v, f ∈ s.visited := by
  obtain ⟨hinv, _, _, hcounts, _⟩ := pass1_spec hp
  intro v hv f hf
  have h1 : 1 ≤ edgesInto h s.visited f := le_edgesInto_of_mem hv hf
  have h2 : 1 ≤ lookupCount s.refState f := by
    rw [hcounts f]
    have := usizeMax_pos
    omega
  exact hinv.domVis f (mem_dom_of_lookupCount_pos h2)

/-! ### Comparing in-heap reference counts against the strong count -/

theorem sum_map_le_of_nodup_subset (g : Nat → Nat) :
    ∀ V K : List Nat, V.Nodup → (∀ v ∈ V, v ∈ K) →
      (V.map g).sum ≤ (K.map g).sum := by
  intro V
  induction V with
  | nil => simp
  | cons v V ih =>
    intro K hnd hsub
    have hvK : v ∈ K := hsub v (List.mem_cons_self v V)
    have hperm : List.Perm K (v :: K.erase v) := List.perm_cons_erase hvK
    have hsum : (K.map g).sum = ((v :: K.erase v).map g).sum :=
      (hperm.map g).sum_eq
    rw [hsum]
    simp only [List.map_cons, List.sum_cons]
    have hnd2 := List.nodup_cons.mp hnd
    have hsub2 : ∀ w ∈ V, w ∈ K.erase v := by
      intro w hw
      have hwv : w ≠ v := by
        rintro rfl
        exact hnd2.1 hw
      exact (List.mem_erase_of_ne hwv).mpr (hsub w (List.mem_cons_of_mem v hw))
    exact Nat.add_le_add_left (ih (K.erase v) hnd2.2 hsub2) (g v)

theorem edgesInto_le_of_subset {h : Heap} {V K : List Nat} (i : Nat)
    (hnd : V.Nodup) (hsub : ∀ v ∈ V, v ∈ K) :
    edgesInto h V i ≤ edgesInto h K i :=
  sum_map_le_of_nodup_subset (fun v => (fieldsOf h v).count i) V K hnd hsub

theorem isAlloc_iff_mem {h : Heap} {i : Nat} :
    isAlloc h i = true ↔ i ∈ heapKeys h := lookup_isSome_iff

/-- Every `cyclic_ref_count` recorded by Pass 1 is bounded by the strong
reference count of its allocation: the in-heap references observed from the
visited set can only undercount the true reference count (spec §3
invariant). -/
theorem refState_le_refCount {h : Heap} {order : List Nat} {fuel : Nat}
    {s : BState} (hwf : WF h) (hcons : Consistent h)
    (hp : pass1 h order fuel = some s) {i c : Nat}
    (hl : List.lookup i s.refState = some c) : c ≤ refCountOf h i := by
  obtain ⟨hinv, hall, _, hcounts, _⟩ := pass1_spec hp
  have hcv : c = min (edgesInto h s.visited i) usizeMax := by
    have hv := hcounts i
    rw [lookupCount, hl] at hv
    simpa using hv
  have hidom : i ∈ s.refState.map Prod.fst := by
    rw [← lookup_isSome_iff]
    simp [hl]
  have hivis : i ∈ s.visited := hinv.domVis i hidom
  have hia := hall i hivis
  rw [isAlloc] at hia
  rcases ho : List.lookup i h with _ | a
  · rw [ho] at hia; simp at hia
  · have hmem := lookup_mem ho
    have hcons1 := hcons (i, a) hmem
    have hrc : refCountOf h i = a.refCount := by simp [refCountOf, ho]
    have hsub : ∀ v ∈ s.visited, v ∈ heapKeys h := fun v hv =>
      isAlloc_iff_mem.mp (hall v hv)
    have hle : edgesInto h s.visited i ≤ edgesTo h i :=
      edgesInto_le_of_subset i hinv.nodupVis hsub
    rw [hcv, hrc]
    calc min (edgesInto h s.visited i) usizeMax
        ≤ edgesInto h s.visited i := Nat.min_le_left _ _
      _ ≤ edgesTo h i := hle
      _ ≤ a.refCount := hcons1

/-- Claim C3: in a run of Pass 1 in which every `accept` succeeds and that
completes without a panic, every `ref_state` entry's `cyclic_ref_count`
equals the number of `Gc` references to that id held inside the set of
allocations visited during the walk, saturating at the maximum word
value. -/
theorem pass1_cyclic_counts (h : Heap) (order : List Nat) (fuel : Nat)
    (s : BState) (hne : NoErr h) (hp : pass1 h order fuel = some s)
    (i c : Nat) (hl : List.lookup i s.refState = some c) :
    c = min (edgesInto h s.visited i) usizeMax := by
  have hv := (pass1_spec hp).2.2.2.1 i
  rw [lookupCount, hl] at hv
  simpa using hv

/-- Witness for claim C3 on the concrete run over `rootedHeap`: allocation
2 is referenced once from inside the walked set. -/
theorem pass1_cyclic_counts_witness :
    NoErr rootedHeap ∧ pass1 rootedHeap [1, 2] 9 = some run1 ∧
    List.lookup 2 run1.refState = some 1 ∧
    1 = min (edgesInto rootedHeap run1.visited 2) usizeMax :=
  ⟨by decide, rfl, rfl,
    pass1_cyclic_counts rootedHeap [1, 2] 9 run1 (by decide) rfl 2 1 rfl⟩

/-- Claim C4: Pass 2 invokes `sweep_fn` exactly for the `ref_state` entries
whose true strong count strictly exceeds their `cyclic_ref_count` and for
the registered ids that never appeared in `ref_state`; an allocation whose
strong count equals its recorded count is not used as a sweep root (on a
consistent heap the source's `!=` test is equivalent to the strict
comparison, since recorded counts never exceed the strong count). -/
theorem sweep_roots_iff (h : Heap) (order : List Nat) (fuel : Nat)
    (s : BState) (hwf : WF h) (hcons : Consistent h)
    (hp : pass1 h order fuel = some s) (i : Nat) :
    i ∈ sweepRoots h order s ↔
      ((∃ c, List.lookup i s.refState = some c ∧ c < refCountOf h i) ∨
        (i ∈ order ∧ List.lookup i s.refState = none)) := by
  obtain ⟨hinv, _, _, _, _⟩ := pass1_spec hp
  constructor
  · intro hi
    rcases List.mem_append.mp hi with hi1 | hi2
    · left
      obtain ⟨p, hpfil, hpfst⟩ := List.mem_map.mp hi1
      obtain ⟨pi, pc⟩ := p
      obtain ⟨hpmem, hpcond⟩ := List.mem_filter.mp hpfil
      simp only at hpfst
      have hne2 : refCountOf h pi ≠ pc := by simpa using hpcond
      have hl : List.lookup pi s.refState = some pc :=
        mem_lookup_of_nodup hinv.nodupKeys hpmem
      have hle : pc ≤ refCountOf h pi := refState_le_refCount hwf hcons hp hl
      rw [← hpfst]
      exact ⟨pc, hl, lt_of_le_of_ne hle (Ne.symm hne2)⟩
    · right
      obtain ⟨hord, hcond⟩ := List.mem_filter.mp hi2
      exact ⟨hord, by simpa using hcond⟩
  · intro hi
    rcases hi with ⟨c, hl, hlt⟩ | ⟨hord, hnone⟩
    · apply List.mem_append_left
      apply List.mem_map.mpr
      refine ⟨(i, c), List.mem_filter.mpr ⟨lookup_mem hl, ?_⟩, rfl⟩
      simpa using (Nat.ne_of_lt hlt).symm
    · apply List.mem_append_right
      exact List.mem_filter.mpr ⟨hord, by simp [hnone]⟩

/-- Witness for claim C4 on the concrete run over `rootedHeap`: allocation
1 (strong count 2, one in-heap reference) is a sweep root. -/
theorem sweep_roots_iff_witness :
    WF rootedHeap ∧ Consistent rootedHeap ∧
    pass1 rootedHeap [1, 2] 9 = some run1 ∧
    (1 ∈ sweepRoots rootedHeap [1, 2] run1 ↔
      ((∃ c, List.lookup 1 run1.refState = some c ∧
          c < refCountOf rootedHeap 1) ∨
        (1 ∈ [1, 2] ∧ List.lookup 1 run1.refState = none))) :=
  ⟨by decide, by decide, rfl,
    sweep_roots_iff rootedHeap [1, 2] 9 run1 (by decide) (by decide) rfl 1⟩

/-! ### The sweep walk -/

theorem sweepMany_nil (h : Heap) (fuel : Nat) (vis : List Nat) :
    sweepMany h fuel vis [] = some vis := rfl

theorem sweepMany_cons (h : Heap) (fuel : Nat) (vis : List Nat) (t : Nat)
    (ts : List Nat) :
    sweepMany h fuel vis (t :: ts) =
      (sweepOne h fuel vis t).bind fun v1 => sweepMany h fuel v1 ts := by
  simp [sweepMany, List.foldlM_cons]

theorem sweepOne_mem {h : Heap} {fuel : Nat} {vis : List Nat} {t : Nat}
    (hmem : t ∈ vis) : sweepOne h fuel vis t = some vis := by
  cases fuel <;> simp [sweepOne, hmem]

theorem sweepOne_zero_notmem {h : Heap} {vis : List Nat} {t : Nat}
    (hmem : t ∉ vis) : sweepOne h 0 vis t = none := by
  simp [sweepOne, hmem]

theorem sweepOne_succ_notmem {h : Heap} {fuel1 : Nat} {vis : List Nat}
    {t : Nat} (hmem : t ∉ vis) :
    sweepOne h (fuel1 + 1) vis t =
      match List.lookup t h with
      | none => none
      | some a =>
        match sweepMany h fuel1 (t :: vis) a.fields with
        | none => none
        | some vis2 => if a.acceptErr then none else some vis2 := by
  simp [sweepOne, hmem, sweepMany]

theorem SweepConc_refl {h : Heap} {vis : List Nat} : SweepConc h vis vis [] :=
  ⟨fun _ hv => hv, by simp, fun v hv => Or.inl hv⟩

theorem SweepConc_comp {h : Heap} {vis vis1 vis2 : List Nat} {t : Nat}
    {ts : List Nat} (h1 : SweepConc h vis vis1 [t])
    (h2 : SweepConc h vis1 vis2 ts) : SweepConc h vis vis2 (t :: ts) := by
  obtain ⟨hm1, ht1, hc1⟩ := h1
  obtain ⟨hm2, ht2, hc2⟩ := h2
  refine ⟨fun v hv => hm2 v (hm1 v hv), ?_, ?_⟩
  · intro u hu
    rcases List.mem_cons.mp hu with rfl | hts
    · exact hm2 u (ht1 u (List.mem_cons_self u []))
    · exact ht2 u hts
  · intro v hv
    rcases hc2 v hv with hv1 | hcl
    · rcases hc1 v hv1 with hv0 | hcl1
      · exact Or.inl hv0
      · exact Or.inr fun f hf => hm2 f (hcl1 f hf)
    · exact Or.inr hcl

theorem sweep_spec (h : Heap) : ∀ fuel : Nat,
    (∀ vis t vis2, sweepOne h fuel vis t = some vis2 →
      SweepConc h vis vis2 [t]) ∧
    (∀ ts vis vis2, sweepMany h fuel vis ts = some vis2 →
      SweepConc h vis vis2 ts) := by
  have hmany : ∀ fuel : Nat,
      (∀ vis t vis2, sweepOne h fuel vis t = some vis2 →
        SweepConc h vis vis2 [t]) →
      ∀ ts vis vis2, sweepMany h fuel vis ts = some vis2 →
        SweepConc h vis vis2 ts := by
    intro fuel hone ts
    induction ts with
    | nil =>
      intro vis vis2 he
      rw [sweepMany_nil] at he
      have hvv := Option.some.inj he
      subst hvv
      exact SweepConc_refl
    | cons t ts ih =>
      intro vis vis2 he
      rw [sweepMany_cons] at he
      rcases hv : sweepOne h fuel vis t with _ | vis1
      · rw [hv] at he; exact Option.noConfusion he
      · rw [hv] at he
        simp only [Option.some_bind] at he
        exact SweepConc_comp (hone vis t vis1 hv) (ih vis1 vis2 he)
  intro fuel
  induction fuel with
  | zero =>
    have hone : ∀ vis t vis2, sweepOne h 0 vis t = some vis2 →
        SweepConc h vis vis2 [t] := by
      intro vis t vis2 he
      by_cases hmem : t ∈ vis
      · rw [sweepOne_mem hmem] at he
        have hvv := Option.some.inj he
        subst hvv
        exact ⟨fun _ hv => hv, fun u hu => by simp at hu; rw [hu]; exact hmem,
          fun v hv => Or.inl hv⟩
      · rw [sweepOne_zero_notmem hmem] at he
        exact Option.noConfusion he
    exact ⟨hone, hmany 0 hone⟩
  | succ fuel1 ihf =>
    have hone : ∀ vis t vis2, sweepOne h (fuel1 + 1) vis t = some vis2 →
        SweepConc h vis vis2 [t] := by
      intro vis t vis2 he
      by_cases hmem : t ∈ vis
      · rw [sweepOne_mem hmem] at he
        have hvv := Option.some.inj he
        subst hvv
        exact ⟨fun _ hv => hv, fun u hu => by simp at hu; rw [hu]; exact hmem,
          fun v hv => Or.inl hv⟩
      · rw [sweepOne_succ_notmem hmem] at he
        split at he
        · exact Option.noConfusion he
        · rename_i a ha
          split at he
          · exact Option.noConfusion he
          · rename_i v2m hm
            split at he
            · exact Option.noConfusion he
            · have hvv := Option.some.inj he
              subst hvv
              obtain ⟨hmono, hts, hclo⟩ := hmany fuel1 ihf.1 a.fields _ _ hm
              have hfT : fieldsOf h t = a.fields := by simp [fieldsOf, ha]
              refine ⟨fun v hv => hmono v (List.mem_cons_of_mem t hv), ?_, ?_⟩
              · intro u hu
                simp at hu
                rw [hu]
                exact hmono t (List.mem_cons_self t vis)
              · intro v hv
                rcases hclo v hv with hv1 | hcl
                · rcases List.mem_cons.mp hv1 with rfl | hv0
                  · exact Or.inr fun f hf => hts f (by rw [← hfT]; exact hf)
                  · exact Or.inl hv0
                · exact Or.inr hcl
    exact ⟨hone, hmany (fuel1 + 1) hone⟩

theorem pass2Go_spec (h : Heap) (fuel : Nat) :
    ∀ (gs vis R : List Nat), pass2Go h fuel vis gs = some R →
      (∀ v ∈ vis, v ∈ R) ∧
      (∀ g ∈ gs, g ∈ R ∧ ∀ f ∈ fieldsOf h g, f ∈ R) ∧
      (∀ v ∈ R, v ∈ vis ∨ ∀ f ∈ fieldsOf h v, f ∈ R) := by
  intro gs
  induction gs with
  | nil =>
    intro vis R he
    rw [show pass2Go h fuel vis [] = some vis from rfl] at he
    have hvv := Option.some.inj he
    subst hvv
    exact ⟨fun _ hv => hv, by simp, fun v hv => Or.inl hv⟩
  | cons g gs ih =>
    intro vis R he
    rw [show pass2Go h fuel vis (g :: gs) =
      (match List.lookup g h with
      | none => none
      | some a =>
        match sweepMany h fuel (if g ∈ vis then vis else g :: vis) a.fields with
        | none => none
        | some vis2 => pass2Go h fuel vis2 gs) from by simp [pass2Go]] at he
    split at he
    · exact Option.noConfusion he
    · rename_i a ha
      split at he
      · exact Option.noConfusion he
      · rename_i vis2 hm
        obtain ⟨hmono1, hts1, hclo1⟩ := (sweep_spec h fuel).2 a.fields _ _ hm
        obtain ⟨hmono2, hgs2, hclo2⟩ := ih vis2 R he
        have hfG : fieldsOf h g = a.fields := by simp [fieldsOf, ha]
        have hvis1 : ∀ v ∈ vis, v ∈ (if g ∈ vis then vis else g :: vis) := by
          intro v hv
          split_ifs
          · exact hv
          · exact List.mem_cons_of_mem g hv
        have hg1 : g ∈ (if g ∈ vis then vis else g :: vis) := by
          split_ifs with hg
          · exact hg
          · exact List.mem_cons_self g vis
        have hsplit1 : ∀ v ∈ (if g ∈ vis then vis else g :: vis),
            v ∈ vis ∨ v = g := by
          intro v hv
          split_ifs at hv with hg
          · exact Or.inl hv
          · rcases List.mem_cons.mp hv with rfl | hv0
            · exact Or.inr rfl
            · exact Or.inl hv0
        refine ⟨fun v hv => hmono2 v (hmono1 v (hvis1 v hv)), ?_, ?_⟩
        · intro g2 hg2
          rcases List.mem_cons.mp hg2 with rfl | hgs
          · refine ⟨hmono2 g2 (hmono1 g2 hg1), ?_⟩
            intro f hf
            rw [hfG] at hf
            exact hmono2 f (hts1 f hf)
          · exact hgs2 g2 hgs
        · intro v hv
          rcases hclo2 v hv with hv2 | hcl
          · rcases hclo1 v hv2 with hv1 | hcl1
            · rcases hsplit1 v hv1 with hv0 | rfl
              · exact Or.inl hv0
              · refine Or.inr ?_
                intro f hf
                rw [hfG] at hf
                exact hmono2 f (hts1 f hf)
            · exact Or.inr fun f hf => hmono2 f (hcl1 f hf)
          · exact Or.inr hcl

/-- Starting from the empty visited set, Pass 2 marks every root together
with its fields, and the final reachable set is closed under fields. -/
theorem pass2_closed {h : Heap} {fuel : Nat} {roots R : List Nat}
    (he : pass2Go h fuel [] roots = some R) :
    (∀ g ∈ roots, g ∈ R ∧ ∀ f ∈ fieldsOf h g, f ∈ R) ∧
    (∀ v ∈ R, ∀ f ∈ fieldsOf h v, f ∈ R) := by
  obtain ⟨_, hroots, hclo⟩ := pass2Go_spec h fuel roots [] R he
  refine ⟨hroots, fun v hv => ?_⟩
  rcases hclo v hv with hv0 | hcl
  · simp at hv0
  · exact hcl

theorem reaches_subset_closed {h : Heap} {S : List Nat}
    (hclo : ∀ v ∈ S, ∀ f ∈ fieldsOf h v, f ∈ S) {x z : Nat}
    (hr : Reaches h x z) : x ∈ S → z ∈ S := by
  induction hr with
  | refl x => exact id
  | step hxl hyf hyz ih =>
    rename_i x2 y2 z2 a2
    intro hx
    apply ih
    apply hclo x2 hx y2
    have hfx : fieldsOf h x2 = a2.fields := by simp [fieldsOf, hxl]
    rw [hfx]
    exact hyf

/-! ### The destroy walk -/

theorem destroyMany_nil (h : Heap) (reach : List Nat) (fuel : Nat)
    (s : DState) : destroyMany h reach fuel s [] = some s := rfl

theorem destroyMany_cons (h : Heap) (reach : List Nat) (fuel : Nat)
    (s : DState) (f : Nat) (l : List Nat) :
    destroyMany h reach fuel s (f :: l) =
      (destroyOne h reach fuel s f).bind fun s1 =>
        destroyMany h reach fuel s1 l := by
  simp [destroyMany, List.foldlM_cons]

theorem destroyOne_skip {h : Heap} {reach : List Nat} {fuel : Nat}
    {s : DState} {f : Nat} (hskip : f ∈ reach ∨ f ∈ s.visited) :
    destroyOne h reach fuel s f = some s := by
  rcases hskip with h1 | h2
  · cases fuel <;> simp [destroyOne, h1]
  · by_cases h1 : f ∈ reach
    · cases fuel <;> simp [destroyOne, h1]
    · cases fuel <;> simp [destroyOne, h1, h2]

theorem destroyOne_zero_new {h : Heap} {reach : List Nat} {s : DState}
    {f : Nat} (h1 : f ∉ reach) (h2 : f ∉ s.visited) :
    destroyOne h reach 0 s f = none := by
  simp [destroyOne, h1, h2]

theorem destroyOne_succ_new {h : Heap} {reach : List Nat} {fuel1 : Nat}
    {s : DState} {f : Nat} (h1 : f ∉ reach) (h2 : f ∉ s.visited) :
    destroyOne h reach (fuel1 + 1) s f =
      match List.lookup f h with
      | none => none
      | some a =>
        match destroyMany h reach fuel1 ⟨f :: s.visited, s.queue⟩
            a.fields with
        | none => none
        | some s2 => some ⟨s2.visited, s2.queue ++ [f]⟩ := by
  simp [destroyOne, h1, h2, destroyMany]

theorem DestroyConc_refl {h : Heap} {reach : List Nat} {s : DState}
    {l : List Nat} : DestroyConc h reach s s l :=
  ⟨[], by simp, List.nodup_nil, by simp, fun _ hv => hv,
    fun V _ hsv _ => hsv⟩

theorem DestroyConc_comp {h : Heap} {reach : List Nat} {s s1 s2 : DState}
    {f : Nat} {l : List Nat} (h1 : DestroyConc h reach s s1 [f])
    (h2 : DestroyConc h reach s1 s2 l) :
    DestroyConc h reach s s2 (f :: l) := by
  obtain ⟨Δ1, hq1, hnd1, hp1, hm1, hc1⟩ := h1
  obtain ⟨Δ2, hq2, hnd2, hp2, hm2, hc2⟩ := h2
  refine ⟨Δ1 ++ Δ2, ?_, ?_, ?_, fun v hv => hm2 v (hm1 v hv), ?_⟩
  · rw [hq2, hq1, List.append_assoc]
  · rw [List.nodup_append]
    refine ⟨hnd1, hnd2, fun d hd1 hd2 => ?_⟩
    exact (hp2 d hd2).1 ((hp1 d hd1).2.1)
  · intro d hd
    rcases List.mem_append.mp hd with hd1 | hd2
    · exact ⟨(hp1 d hd1).1, hm2 d ((hp1 d hd1).2.1), (hp1 d hd1).2.2⟩
    · exact ⟨fun hds => (hp2 d hd2).1 (hm1 d hds), (hp2 d hd2).2.1,
        (hp2 d hd2).2.2⟩
  · intro V hVclo hsV hlV
    have hfV : ∀ u ∈ [f], u ∈ V := by
      intro u hu
      simp at hu
      rw [hu]
      exact hlV f (List.mem_cons_self f l)
    have hs1V : ∀ v ∈ s1.visited, v ∈ V := hc1 V hVclo hsV hfV
    exact hc2 V hVclo hs1V fun u hu => hlV u (List.mem_cons_of_mem f hu)

/-- Zero the count, destroy the fields, then push: the effect of one
executed destroy body on the destroyer state. -/
theorem DestroyConc_push {h : Heap} {reach : List Nat} {s : DState}
    {f : Nat} {a : Alloc} {s2m : DState} (h1 : f ∉ reach)
    (h2 : f ∉ s.visited) (ha : List.lookup f h = some a)
    (hdc : DestroyConc h reach ⟨f :: s.visited, s.queue⟩ s2m a.fields) :
    DestroyConc h reach s ⟨s2m.visited, s2m.queue ++ [f]⟩ [f] := by
  obtain ⟨Δ1, hq1, hnd1, hp1, hm1, hc1⟩ := hdc
  dsimp only at hq1 hp1 hm1 hc1
  have hfT : fieldsOf h f = a.fields := by simp [fieldsOf, ha]
  refine ⟨Δ1 ++ [f], ?_, ?_, ?_, ?_, ?_⟩
  · dsimp only
    rw [hq1, List.append_assoc]
  · have hfΔ1 : f ∉ Δ1 := fun hc =>
      (hp1 f hc).1 (List.mem_cons_self f s.visited)
    simp [List.nodup_append, hnd1, hfΔ1]
  · intro d hd
    rcases List.mem_append.mp hd with hd1 | hd2
    · exact ⟨fun hds => (hp1 d hd1).1 (List.mem_cons_of_mem f hds),
        (hp1 d hd1).2.1, (hp1 d hd1).2.2⟩
    · simp at hd2
      rw [hd2]
      exact ⟨h2, hm1 f (List.mem_cons_self f s.visited), h1⟩
  · intro v hv
    exact hm1 v (List.mem_cons_of_mem f hv)
  · intro V hVclo hsV hfV
    have hfInV : f ∈ V := hfV f (List.mem_cons_self f [])
    have hconsV : ∀ v ∈ f :: s.visited, v ∈ V := by
      intro v hv
      rcases List.mem_cons.mp hv with rfl | hv0
      · exact hfInV
      · exact hsV v hv0
    have hflds : ∀ u ∈ a.fields, u ∈ V := by
      intro u hu
      apply hVclo f hfInV
      rw [hfT]
      exact hu
    exact hc1 V hVclo hconsV hflds

theorem destroy_spec (h : Heap) (reach : List Nat) : ∀ fuel : Nat,
    (∀ s f s2, destroyOne h reach fuel s f = some s2 →
      DestroyConc h reach s s2 [f]) ∧
    (∀ l s s2, destroyMany h reach fuel s l = some s2 →
      DestroyConc h reach s s2 l) := by
  have hmany : ∀ fuel : Nat,
      (∀ s f s2, destroyOne h reach fuel s f = some s2 →
        DestroyConc h reach s s2 [f]) →
      ∀ l s s2, destroyMany h reach fuel s l = some s2 →
        DestroyConc h reach s s2 l := by
    intro fuel hone l
    induction l with
    | nil =>
      intro s s2 he
      rw [destroyMany_nil] at he
      have hss := Option.some.inj he
      subst hss
      exact DestroyConc_refl
    | cons f l ih =>
      intro s s2 he
      rw [destroyMany_cons] at he
      rcases hv : destroyOne h reach fuel s f with _ | s1
      · rw [hv] at he; exact Option.noConfusion he
      · rw [hv] at he
        simp only [Option.some_bind] at he
        exact DestroyConc_comp (hone s f s1 hv) (ih s1 s2 he)
  intro fuel
  induction fuel with
  | zero =>
    have hone : ∀ s f s2, destroyOne h reach 0 s f = some s2 →
        DestroyConc h reach s s2 [f] := by
      intro s f s2 he
      by_cases hskip : f ∈ reach ∨ f ∈ s.visited
      · rw [destroyOne_skip hskip] at he
        have hss := Option.some.inj he
        subst hss
        exact DestroyConc_refl
      · push_neg at hskip
        rw [destroyOne_zero_new hskip.1 hskip.2] at he
        exact Option.noConfusion he
    exact ⟨hone, hmany 0 hone⟩
  | succ fuel1 ihf =>
    have hone : ∀ s f s2, destroyOne h reach (fuel1 + 1) s f = some s2 →
        DestroyConc h reach s s2 [f] := by
      intro s f s2 he
      by_cases hskip : f ∈ reach ∨ f ∈ s.visited
      · rw [destroyOne_skip hskip] at he
        have hss := Option.some.inj he
        subst hss
        exact DestroyConc_refl
      · push_neg at hskip
        rw [destroyOne_succ_new hskip.1 hskip.2] at he
        split at he
        · exact Option.noConfusion he
        · rename_i a ha
          split at he
          · exact Option.noConfusion he
          · rename_i s2m hm
            have hss := Option.some.inj he
            subst hss
            exact DestroyConc_push hskip.1 hskip.2 ha
              (hmany fuel1 ihf.1 a.fields _ _ hm)
    exact ⟨hone, hmany (fuel1 + 1) hone⟩

theorem pass3Go_spec (h : Heap) (reach : List Nat) (fuel : Nat) :
    ∀ (ks : List Nat) (s s2 : DState), pass3Go h reach fuel s ks = some s2 →
      DestroyConc h reach s s2 ks := by
  intro ks
  induction ks with
  | nil =>
    intro s s2 he
    rw [show pass3Go h reach fuel s [] = some s from rfl] at he
    have hss := Option.some.inj he
    subst hss
    exact DestroyConc_refl
  | cons k ks ih =>
    intro s s2 he
    by_cases hskip : k ∈ reach ∨ k ∈ s.visited
    · rw [show pass3Go h reach fuel s (k :: ks) = pass3Go h reach fuel s ks
        from by simp [pass3Go, hskip]] at he
      obtain ⟨Δ, hq, hnd, hp, hm, hc⟩ := ih s s2 he
      exact ⟨Δ, hq, hnd, hp, hm, fun V hVclo hsV hlV =>
        hc V hVclo hsV fun u hu => hlV u (List.mem_cons_of_mem k hu)⟩
    · rw [show pass3Go h reach fuel s (k :: ks) =
        (match List.lookup k h with
        | none => none
        | some a =>
          match destroyMany h reach fuel ⟨k :: s.visited, s.queue⟩
              a.fields with
          | none => none
          | some s1 => pass3Go h reach fuel ⟨s1.visited, s1.queue ++ [k]⟩ ks)
        from by simp [pass3Go, hskip]] at he
      push_neg at hskip
      split at he
      · exact Option.noConfusion he
      · rename_i a ha
        split at he
        · exact Option.noConfusion he
        · rename_i s1 hm
          have hdc1 : DestroyConc h reach s ⟨s1.visited, s1.queue ++ [k]⟩
              [k] :=
            DestroyConc_push hskip.1 hskip.2 ha
              ((destroy_spec h reach fuel).2 a.fields _ _ hm)
          exact DestroyConc_comp hdc1 (ih _ s2 he)

/-! ### The whole collection -/

theorem collectAll_inv {h : Heap} {order : List Nat} {fuel : Nat}
    {res : CollectResult} (hc : collectAll h order fuel = some res) :
    ∃ s reach d, pass1 h order fuel = some s ∧
      pass2Go h fuel [] (sweepRoots h order s) = some reach ∧
      pass3Go h reach fuel ⟨[], []⟩ order = some d ∧
      res = ⟨s.visited, s.refState, sweepRoots h order s, reach, d.queue⟩ := by
  unfold collectAll at hc
  split at hc
  · exact Option.noConfusion hc
  · rename_i s hp
    split at hc
    · exact Option.noConfusion hc
    · rename_i reach h2
      split at hc
      · exact Option.noConfusion hc
      · rename_i d h3
        exact ⟨s, reach, d, hp, h2, h3, (Option.some.inj hc).symm⟩

/-- Claim C6: in every completed run of `collect_all`, each allocation is
destroyed at most once — the destroy pass's `visited` set deduplicates
between the top-level drain loop and recursive destroyer visits, so no
destroy body runs twice and no `(address, layout)` pair is pushed to the
deallocation queue twice, even when unreachable allocations share tails. -/
theorem destroy_queue_nodup (h : Heap) (order : List Nat) (fuel : Nat)
    (res : CollectResult) (hc : collectAll h order fuel = some res) :
    res.queue.Nodup := by
  obtain ⟨s, reach, d, hp, h2, h3, hres⟩ := collectAll_inv hc
  obtain ⟨Δ, hq, hnd, _, _, _⟩ := pass3Go_spec h reach fuel order ⟨[], []⟩ d h3
  dsimp only at hq
  rw [hres]
  dsimp only
  rw [hq]
  simpa using hnd

/-- Witness for claim C6: the run over `sharedTailHeap`, where two
unreachable self-cycles share the tail allocation 2 and the queue still has
no duplicates. -/
theorem destroy_queue_nodup_witness :
    collectAll sharedTailHeap [0, 1, 2] 9 = some runRes6 ∧
    runRes6.queue.Nodup :=
  ⟨rfl, destroy_queue_nodup sharedTailHeap [0, 1, 2] 9 runRes6 rfl⟩

/-! ### Roots are spared -/

theorem edgesTo_le_refCountOf {h : Heap} (hcons : Consistent h) {y : Nat}
    (hy : isAlloc h y = true) : edgesTo h y ≤ refCountOf h y := by
  rw [isAlloc] at hy
  rcases ho : List.lookup y h with _ | ay
  · rw [ho] at hy; simp at hy
  · have hc := hcons (y, ay) (lookup_mem ho)
    simpa [refCountOf, ho] using hc

theorem edgesInto_lt_of_outside_edge {h : Heap} (hwf : WF h) {V : List Nat}
    (hnd : V.Nodup) (hVal : ∀ v ∈ V, isAlloc h v = true) {w y : Nat}
    (hw : isAlloc h w = true) (hwV : w ∉ V) (hy : y ∈ fieldsOf h w) :
    edgesInto h V y < edgesTo h y := by
  have hsub : ∀ v ∈ w :: V, v ∈ heapKeys h := by
    intro v hv
    rcases List.mem_cons.mp hv with rfl | hv0
    · exact isAlloc_iff_mem.mp hw
    · exact isAlloc_iff_mem.mp (hVal v hv0)
  have hnd2 : (w :: V).Nodup := List.nodup_cons.mpr ⟨hwV, hnd⟩
  have hle : edgesInto h (w :: V) y ≤ edgesTo h y :=
    edgesInto_le_of_subset y hnd2 hsub
  have h1 : 1 ≤ (fieldsOf h w).count y := List.one_le_count_iff.mpr hy
  rw [edgesInto_cons] at hle
  omega

/-- A visited allocation with a reference from outside the walked set is a
sweep root and hence ends up in the reachable set. -/
theorem visited_root_swept {h : Heap} {order : List Nat} {fuel : Nat}
    {s : BState} {R : List Nat} (hwf : WF h) (hcons : Consistent h)
    (hp : pass1 h order fuel = some s)
    (h2 : pass2Go h fuel [] (sweepRoots h order s) = some R) {r : Nat}
    (hrvis : r ∈ s.visited)
    (hroot : edgesInto h s.visited r < refCountOf h r) : r ∈ R := by
  obtain ⟨hinv, hall, hOrDom, hcounts, hOrder⟩ := pass1_spec hp
  have hmem : r ∈ sweepRoots h order s := by
    apply (sweep_roots_iff h order fuel s hwf hcons hp r).mpr
    rcases ho : List.lookup r s.refState with _ | c
    · refine Or.inr ⟨?_, rfl⟩
      rcases hOrDom r hrvis with hord | hdom
      · exact hord
      · exact absurd hdom (lookup_eq_none_iff.mp ho)
    · refine Or.inl ⟨c, rfl, ?_⟩
      have hcv : c = min (edgesInto h s.visited r) usizeMax := by
        have hv := hcounts r
        rw [lookupCount, ho] at hv
        simpa using hv
      calc c ≤ edgesInto h s.visited r := by
            rw [hcv]; exact Nat.min_le_left _ _
        _ < refCountOf h r := hroot
  exact ((pass2_closed h2).1 r hmem).1

/-- Any allocation reachable from an allocated id outside the walked set is
either marked reachable or was never walked (and so is never destroyed). -/
theorem spared_unvisited {h : Heap} {order : List Nat} {fuel : Nat}
    {s : BState} {R : List Nat} (hwf : WF h) (hcons : Consistent h)
    (hp : pass1 h order fuel = some s)
    (h2 : pass2Go h fuel [] (sweepRoots h order s) = some R) {x z : Nat}
    (hr : Reaches h x z) :
    x ∉ s.visited → isAlloc h x = true → z ∈ R ∨ z ∉ s.visited := by
  induction hr with
  | refl x => exact fun hx _ => Or.inr hx
  | step hxl hyf hyz ih =>
    rename_i x2 y2 z2 a2
    intro hxnv hxal
    have hyal : isAlloc h y2 = true :=
      hwf.2 (x2, a2) (lookup_mem hxl) y2 hyf
    by_cases hyvis : y2 ∈ s.visited
    · left
      obtain ⟨hinv, hall, _, _, _⟩ := pass1_spec hp
      have hfy : y2 ∈ fieldsOf h x2 := by
        have hfx : fieldsOf h x2 = a2.fields := by simp [fieldsOf, hxl]
        rw [hfx]
        exact hyf
      have hlt : edgesInto h s.visited y2 < edgesTo h y2 :=
        edgesInto_lt_of_outside_edge hwf hinv.nodupVis hall hxal hxnv hfy
      have hroot2 : edgesInto h s.visited y2 < refCountOf h y2 :=
        lt_of_lt_of_le hlt (edgesTo_le_refCountOf hcons hyal)
      exact reaches_subset_closed (pass2_closed h2).2 hyz
        (visited_root_swept hwf hcons hp h2 hyvis hroot2)
    · exact ih hyvis hyal

/-- Claim C1: in every completed run of `collect_all`, no allocation with a
reference from outside the walked heap (a root), and no allocation
transitively reachable from such a root via `Gc` fields, is destroyed or
deallocated; equivalently, every destroyed and deallocated allocation was
unreachable from every root. -/
theorem collect_spares_roots (h : Heap) (order : List Nat) (fuel : Nat)
    (res : CollectResult) (hwf : WF h) (hcons : Consistent h)
    (hrun : collectAll h order fuel = some res) (r z : Nat)
    (hr : isAlloc h r = true)
    (hroot : edgesInto h res.walked r < refCountOf h r)
    (hreach : Reaches h r z) : z ∉ res.queue := by
  obtain ⟨s, R, d, hp, h2, h3, hres⟩ := collectAll_inv hrun
  subst hres
  dsimp only at hroot ⊢
  obtain ⟨hinv, hall, hOrDom, hcounts, hOrder⟩ := pass1_spec hp
  have hclosedP1 := pass1_closed hp
  obtain ⟨Δ, hq, hndΔ, hdprops, hdmono, hcont⟩ :=
    pass3Go_spec h R fuel order ⟨[], []⟩ d h3
  dsimp only at hq hdprops hcont
  have hqΔ : d.queue = Δ := by simpa using hq
  have hdvisP1 : ∀ v ∈ d.visited, v ∈ s.visited :=
    hcont s.visited hclosedP1 (by simp) hOrder
  have hqP1 : ∀ q ∈ d.queue, q ∈ s.visited := by
    intro q hq2
    rw [hqΔ] at hq2
    exact hdvisP1 q (hdprops q hq2).2.1
  have hqR : ∀ q ∈ d.queue, q ∉ R := by
    intro q hq2
    rw [hqΔ] at hq2
    exact (hdprops q hq2).2.2
  by_cases hrvis : r ∈ s.visited
  · have hzR : z ∈ R := reaches_subset_closed (pass2_closed h2).2 hreach
      (visited_root_swept hwf hcons hp h2 hrvis hroot)
    exact fun hzq => hqR z hzq hzR
  · rcases spared_unvisited hwf hcons hp h2 hreach hrvis hr with hzR | hznv
    · exact fun hzq => hqR z hzq hzR
    · exact fun hzq => hznv (hqP1 z hzq)

/-- Witness for claim C1 on `rootedHeap`: allocation 0 is a root (one stack
reference), 2 is reachable from it through 1, and the run deallocates
nothing. -/
theorem collect_spares_roots_witness :
    WF rootedHeap ∧ Consistent rootedHeap ∧
    collectAll rootedHeap [1, 2] 9 = some runRes1 ∧
    isAlloc rootedHeap 0 = true ∧
    edgesInto rootedHeap runRes1.walked 0 < refCountOf rootedHeap 0 ∧
    Reaches rootedHeap 0 2 ∧
    2 ∉ runRes1.queue :=
  ⟨by decide, by decide, rfl, by decide, by decide,
    @Reaches.step rootedHeap 0 1 2 ⟨1, [1], false⟩ rfl (by decide)
      (@Reaches.step rootedHeap 1 2 2 ⟨2, [2], false⟩ rfl (by decide)
        (Reaches.refl 2)),
    collect_spares_roots rootedHeap [1, 2] 9 runRes1 (by decide) (by decide)
      rfl 0 2 (by decide) (by decide)
      (@Reaches.step rootedHeap 0 1 2 ⟨1, [1], false⟩ rfl (by decide)
        (@Reaches.step rootedHeap 1 2 2 ⟨2, [2], false⟩ rfl (by decide)
          (Reaches.refl 2)))⟩

end Dumpster
